import Mathlib

/-!
Verification development for the notes_bot repository.

The Python source manipulates strings; we embed strings as `List Char`
(`Str`) and translate the string primitives used by the code
(`str.split`, `str.strip`, `str.find`, `str.replace`, slicing, joining)
into executable Lean functions with Python's semantics.  On top of these
we embed the feature modules (`src/features/tasks.py`,
`src/features/rating.py`), the keyboard builders
(`src/keyboards/tasks.py`, line 72 of `src/keyboards/calendar.py`),
the filename convention (`src/utils.py`), the per-user session state
(`src/states/context.py`, `src/states/manager.py`) and the event
handlers (`src/handlers/messages.py`, `src/handlers/callbacks.py`) as
pure functions over an explicit world state (session map + note files).

Recursions that are not structural (multi-character splitting, decimal
rendering) are implemented with an explicit fuel argument so that all
definitions compute by kernel reduction; fuel-invariance lemmas below
recover the natural recurrences, and no other proof mentions fuel.
-/

namespace NotesBot

abbrev Str := List Char

/-- ASCII whitespace, as stripped by Python `str.strip()`. -/
def isWS (c : Char) : Bool :=
  c = ' ' || c = '\t' || c = '\n' || c = '\r' || c = Char.ofNat 11 || c = Char.ofNat 12

/-- Python `str.lstrip()`. -/
def lstrip : Str → Str
  | [] => []
  | c :: r => if isWS c then lstrip r else c :: r

/-- Python `str.rstrip()`. -/
def rstrip (s : Str) : Str := (lstrip s.reverse).reverse

/-- Python `str.strip()`. -/
def strip (s : Str) : Str := lstrip (rstrip s)

/-- Python `sub in s` (contiguous substring test). -/
def containsSub (pat : Str) : Str → Bool
  | [] => pat.isEmpty
  | c :: rest => pat.isPrefixOf (c :: rest) || containsSub pat rest

/-- Python `s.find(sub)` restricted to the found case: index of the
leftmost occurrence of `pat` in `s`, or `none` (Python returns -1). -/
def findSub (pat : Str) : Str → Option Nat
  | [] => if pat.isEmpty then some 0 else none
  | c :: rest =>
    if pat.isPrefixOf (c :: rest) then some 0
    else (findSub pat rest).map (· + 1)

/-- Python `s.find(sub, start)`: leftmost occurrence at index ≥ `start`
(the returned index is absolute, as in Python). -/
def findSubFrom (pat : Str) (s : Str) (start : Nat) : Option Nat :=
  (findSub pat (s.drop start)).map (· + start)

/-- Fueled worker for `pySplit`; fuel `≥ s.length` is always enough. -/
def pySplitF (sep : Str) : Nat → Str → List Str
  | _, [] => [[]]
  | 0, s => [s]
  | fuel + 1, c :: rest =>
    if sep ≠ [] ∧ sep.isPrefixOf (c :: rest) then
      [] :: pySplitF sep fuel ((c :: rest).drop sep.length)
    else
      match pySplitF sep fuel rest with
      | [] => [[c]]
      | h' :: t => (c :: h') :: t

/-- Python `s.split(sep)` for a non-empty separator string: greedy
leftmost non-overlapping splitting.  `pySplit sep "" = [""]`. -/
def pySplit (sep : Str) (s : Str) : List Str := pySplitF sep s.length s

/-- Python `s.replace(old, new, 1)`. -/
def replaceFirst (pat new s : Str) : Str :=
  match findSub pat s with
  | none => s
  | some p => s.take p ++ new ++ s.drop (p + pat.length)

/-- Fueled worker for `replaceAll`. -/
def replaceAllF (pat new : Str) : Nat → Str → Str
  | _, [] => []
  | 0, s => s
  | fuel + 1, c :: rest =>
    if pat ≠ [] ∧ pat.isPrefixOf (c :: rest) then
      new ++ replaceAllF pat new fuel ((c :: rest).drop pat.length)
    else
      c :: replaceAllF pat new fuel rest

/-- Python `s.replace(old, new)` (all non-overlapping occurrences, left
to right), for a non-empty `pat`. -/
def replaceAll (pat new s : Str) : Str := replaceAllF pat new s.length s

/-- Fueled worker for `natStr`; fuel `> n` is always enough. -/
def natStrF : Nat → Nat → Str
  | 0, _ => []
  | fuel + 1, n =>
    if n < 10 then [Nat.digitChar n]
    else natStrF fuel (n / 10) ++ [Nat.digitChar (n % 10)]

/-- Decimal digit string of a natural number (Python `f-string` of a
non-negative int). -/
def natStr (n : Nat) : Str := natStrF (n + 1) n

/-- Python `f-string` rendering of an int. -/
def intStr (i : Int) : Str :=
  if i < 0 then '-' :: natStr (-i).toNat else natStr i.toNat

/-- Python `f"{n:02d}"` for a non-negative int. -/
def pad2 (n : Nat) : Str :=
  if n < 10 then '0' :: natStr n else natStr n

/-- Value of a digit string (helper for the int parser). -/
def digitsVal (s : Str) : Nat :=
  s.foldl (fun a c => a * 10 + (c.toNat - 48)) 0

/-- Python `int(s)` on a stripped string: optional sign, then one or
more ASCII digits; `none` models `ValueError`. -/
def pyIntCore : Str → Option Int
  | [] => none
  | '-' :: d => if d ≠ [] ∧ d.all Char.isDigit then some (-(digitsVal d : Int)) else none
  | '+' :: d => if d ≠ [] ∧ d.all Char.isDigit then some (digitsVal d : Int) else none
  | d => if d.all Char.isDigit then some (digitsVal d : Int) else none

/-- Python `int(s)` on a string (surrounding whitespace allowed). -/
def pyInt (s : Str) : Option Int :=
  pyIntCore (strip s)

/-- Python `"\n".join`. -/
def joinNl (lines : List Str) : Str := List.intercalate ['\n'] lines

/-- Python `s.split(sep, 1)` for a single-character separator: split at
the first occurrence, if any. -/
def breakAt (sep : Char) : Str → Option (Str × Str)
  | [] => none
  | c :: r =>
    if c = sep then some ([], r)
    else (breakAt sep r).map (fun p => (c :: p.1, p.2))

end NotesBot

namespace NotesBot

/-! ## Embedding of `src/features/tasks.py` -/

/-- The section delimiter substring `---` (the code splits the whole
content on this *substring*, via `content.split("---")`). -/
def delim : Str := "---".toList

/-- Checklist marker `- [ ]` (incomplete). -/
def mUnchecked : Str := "- [ ]".toList

/-- Checklist marker `- [x]` (complete). -/
def mCheckedLo : Str := "- [x]".toList

/-- Checklist marker `- [X]` (complete). -/
def mCheckedHi : Str := "- [X]".toList

/-- The completion-annotation opening token `[completion::`. -/
def tokCompletion : Str := "[completion::".toList

/-- One parsed task, as built by `parse_tasks` (`tasks.py` lines 60-86). -/
structure Task where
  text : Str
  completed : Bool
  index : Nat
  line_number : Nat
deriving DecidableEq

/-- Task text extraction from a stripped task line
(`tasks.py` lines 55-58 / 73-76): drop the 5 marker characters, strip,
and cut any `[completion:: ...]` metadata. -/
def taskTextOf (st : Str) : Str :=
  let t := strip (st.drop 5)
  if containsSub tokCompletion t then strip (t.take ((findSub tokCompletion t).getD 0))
  else t

/-- The classification loop of `parse_tasks` (`tasks.py` lines 48-86):
`i` is the enumerate index of the current line inside the tasks section,
`tidx` the running task counter. -/
def classifyGo (off : Nat) : List Str → Nat → Nat → List Task
  | [], _, _ => []
  | l :: rest, i, tidx =>
    let st := strip l
    if mUnchecked.isPrefixOf st then
      ⟨taskTextOf st, false, tidx, off + i⟩ :: classifyGo off rest (i + 1) (tidx + 1)
    else if mCheckedLo.isPrefixOf st || mCheckedHi.isPrefixOf st then
      ⟨taskTextOf st, true, tidx, off + i⟩ :: classifyGo off rest (i + 1) (tidx + 1)
    else
      classifyGo off rest (i + 1) tidx

/-- `parse_tasks` (`tasks.py` lines 11-93). -/
def parse_tasks (content : Str) : List Task :=
  let parts := pySplit delim content
  if parts.length < 4 then []
  else
    let tasks_section := parts.getD 2 []
    let lines := tasks_section.splitOn '\n'
    let first_delimiter_pos := (findSub delim content).getD 0
    let second_delimiter_pos := (findSubFrom delim content (first_delimiter_pos + 3)).getD 0
    let line_offset := (content.take (second_delimiter_pos + 3)).count '\n' + 1
    classifyGo line_offset lines 0 0

/-- Removal of the first `[completion:: ...]` annotation
(`tasks.py` lines 149-153 and 166-169):
`line[:start].rstrip() + line[end:]` where `end` is one past the first
`]` at or after the token (Python yields `end = 0` when no `]`
follows). -/
def stripCompletion (line : Str) : Str :=
  match findSub tokCompletion line with
  | none => line
  | some s =>
    let e := match findSubFrom [']'] line s with
      | some q => q + 1
      | none => 0
    rstrip (line.take s) ++ line.drop e

/-- The mark-completed line transformation of `toggle_task`
(`tasks.py` lines 144-159): strip any existing completion annotation,
replace the first `- [ ]` by `- [x]`, and append a fresh
`  [completion:: <today>]`. -/
def toggleLineDone (today line : Str) : Str :=
  let l1 := if containsSub tokCompletion line then stripCompletion line else line
  let l2 := replaceFirst mUnchecked mCheckedLo l1
  rstrip l2 ++ "  [completion:: ".toList ++ today ++ [']']

/-- The mark-incomplete line transformation of `toggle_task`
(`tasks.py` lines 161-172): replace the checked markers by `- [ ]` and
remove any completion annotation. -/
def toggleLineUndone (line : Str) : Str :=
  let l1 := replaceFirst mCheckedLo mUnchecked line
  let l2 := replaceFirst mCheckedHi mUnchecked l1
  if containsSub tokCompletion l2 then stripCompletion l2 else l2

/-- `toggle_task` (`tasks.py` lines 96-185) as a pure function on the
file content; `today` is `datetime.now().strftime("%Y-%m-%d")`, and
`none` models the `False` return (the file is left unchanged). The
caller (`handle_task_toggle`) supplies the content of an existing
file. -/
def toggle_task (today : Str) (content : Str) (task_index : Int) : Option Str :=
  let tasks := parse_tasks content
  if task_index < 0 ∨ (tasks.length : Int) ≤ task_index then none
  else
    let target := tasks.getD task_index.toNat ⟨[], false, 0, 0⟩
    let lines := content.splitOn '\n'
    let line_idx := target.line_number - 1
    if lines.length ≤ line_idx then none
    else
      let line := lines.getD line_idx []
      if containsSub mUnchecked line then
        some (joinNl (lines.set line_idx (toggleLineDone today line)))
      else if containsSub mCheckedLo line || containsSub mCheckedHi line then
        some (joinNl (lines.set line_idx (toggleLineUndone line)))
      else none

/-- The `last_task_idx` scan of `add_task` (`tasks.py` lines 222-231):
index of the last line whose stripped form starts with a checklist
marker, `-1` if none. -/
def lastTaskIdx (lines : List Str) : Int :=
  (lines.enum.foldl
    (fun acc p =>
      let st := strip p.2
      if mUnchecked.isPrefixOf st || mCheckedLo.isPrefixOf st || mCheckedHi.isPrefixOf st then
        (p.1 : Int)
      else acc)
    (-1))

/-- `add_task` (`tasks.py` lines 188-258) as a pure function on the file
content; `none` models the `False` return. -/
def add_task (content : Str) (task_text : Str) : Option Str :=
  let parts := pySplit delim content
  if parts.length < 4 then none
  else
    let tasks_section := parts.getD 2 []
    let lines := tasks_section.splitOn '\n'
    let last := lastTaskIdx lines
    let new_task := "- [ ] ".toList ++ task_text
    let lines' :=
      if 0 ≤ last then lines.insertIdx (last.toNat + 1) new_task
      else if lines ≠ [] ∧ lines.head? = some [] then lines.insertIdx 1 new_task
      else lines.insertIdx 0 new_task
    some (List.intercalate delim (parts.set 2 (joinNl lines')))

/-! ## Embedding of `src/features/rating.py` -/

/-- The frontmatter rating key (`'Оценка:'`). -/
def ratingKey : Str := "Оценка:".toList

/-- The rating line written by `update_rating` (`f'Оценка: {rating}'`). -/
def ratingLineOf (r : Int) : Str := "Оценка: ".toList ++ intStr r

/-- `update_rating` (`rating.py` lines 10-68) as a pure function on the
file content; `none` models the `False` return. -/
def update_rating (content : Str) (rating : Int) : Option Str :=
  let parts := pySplit delim content
  if parts.length < 3 then none
  else
    let frontmatter := parts.getD 1 []
    let lines := frontmatter.splitOn '\n'
    let rating_found := lines.any (fun l => ratingKey.isPrefixOf (strip l))
    let updated := lines.map (fun l => if ratingKey.isPrefixOf (strip l) then ratingLineOf rating else l)
    let updated' :=
      if rating_found then updated
      else if updated ≠ [] ∧ updated.getLast? = some [] then
        updated.insertIdx (updated.length - 1) (ratingLineOf rating)
      else updated ++ [ratingLineOf rating]
    some (List.intercalate delim (parts.set 1 (joinNl updated')))

/-- `get_rating` (`rating.py` lines 71-116) as a pure function on the
file content. -/
def get_rating (content : Str) : Option Int :=
  let parts := pySplit delim content
  if parts.length < 3 then none
  else
    let frontmatter := parts.getD 1 []
    let lines := frontmatter.splitOn '\n'
    match lines.find? (fun l => ratingKey.isPrefixOf (strip l)) with
    | none => none
    | some line =>
      match breakAt ':' line with
      | none => none
      | some p => pyInt (strip p.2)

/-- The line rewriting performed by `update_rating` on the frontmatter
lines (`rating.py` lines 40-55), factored out of `update_rating` for
reasoning: replace every `Оценка:` line, or insert/append a fresh one
when none exists. -/
def updatedRatingLines (lines : List Str) (rating : Int) : List Str :=
  let rating_found := lines.any (fun l => ratingKey.isPrefixOf (strip l))
  let updated := lines.map (fun l => if ratingKey.isPrefixOf (strip l) then ratingLineOf rating else l)
  if rating_found then updated
  else if updated ≠ [] ∧ updated.getLast? = some [] then
    updated.insertIdx (updated.length - 1) (ratingLineOf rating)
  else updated ++ [ratingLineOf rating]

end NotesBot

namespace NotesBot

/-! ## Embedding of `src/keyboards/tasks.py` and of the date-id
construction in `src/keyboards/calendar.py` / `src/utils.py` -/

/-- One `InlineKeyboardButton(text, callback_data=...)`. -/
structure Button where
  text : Str
  callback_data : Str
deriving DecidableEq

/-- An `InlineKeyboardMarkup` is a list of button rows. -/
abbrev Keyboard := List (List Button)

/-- `get_tasks_keyboard` (`keyboards/tasks.py` lines 7-63). -/
def get_tasks_keyboard (tasks : List Task) (current_page : Nat) (tasks_per_page : Nat) : Keyboard :=
  let total_pages := (tasks.length + tasks_per_page - 1) / tasks_per_page
  let start_idx := current_page * tasks_per_page
  let end_idx := min (start_idx + tasks_per_page) tasks.length
  let taskRows := ((tasks.drop start_idx).take (end_idx - start_idx)).map
    (fun t =>
      [⟨(if t.completed then "☑".toList else "☐".toList) ++ ' ' :: t.text,
        "task:toggle:".toList ++ natStr t.index⟩])
  let addRow : List Button := [⟨"➕ Добавить задачу".toList, "task:add".toList⟩]
  let navRows : Keyboard :=
    if total_pages > 1 then
      [(if current_page > 0 then
          [⟨"◀".toList, "task:page:".toList ++ natStr (current_page - 1)⟩]
        else []) ++
       [⟨natStr (current_page + 1) ++ '/' :: natStr total_pages, "task:noop".toList⟩] ++
       (if current_page < total_pages - 1 then
          [⟨"▶".toList, "task:page:".toList ++ natStr (current_page + 1)⟩]
        else [])]
    else []
  taskRows ++ [addRow] ++ navRows ++ [[⟨"◀ Назад".toList, "task:back".toList⟩]]

/-- `calendar.month_abbr[m]` for `m` in 1..12 (C locale), also the value
of `strftime`'s `%b`. -/
def month_abbr : Nat → Str
  | 1 => "Jan".toList
  | 2 => "Feb".toList
  | 3 => "Mar".toList
  | 4 => "Apr".toList
  | 5 => "May".toList
  | 6 => "Jun".toList
  | 7 => "Jul".toList
  | 8 => "Aug".toList
  | 9 => "Sep".toList
  | 10 => "Oct".toList
  | 11 => "Nov".toList
  | 12 => "Dec".toList
  | _ => []

/-- The calendar-cell date id `f"{day:02d}-{calendar.month_abbr[month]}-{year}"`
(`keyboards/calendar.py` line 72). -/
def cellDateStr (year month day : Nat) : Str :=
  pad2 day ++ '-' :: month_abbr month ++ '-' :: natStr year

/-- `strftime('%d-%b-%Y')` for a given date: zero-padded day, 3-letter
month abbreviation, unpadded decimal year (C locale). -/
def strftimeDdbY (year month day : Nat) : Str :=
  pad2 day ++ '-' :: month_abbr month ++ '-' :: natStr year

/-- The filename produced by `get_today_filename` (`utils.py` lines
8-23) for the logical-today date `(year, month, day)`:
`strftime('%d-%b-%Y') + '.md'`. -/
def todayFilenameFor (year month day : Nat) : Str :=
  strftimeDdbY year month day ++ ".md".toList

/-! ## Embedding of `src/states` and `src/handlers` -/

/-- `UserState` (`states/context.py`). -/
inductive UserState where
  | IDLE
  | WAITING_RATING
  | TASKS_VIEW
  | WAITING_NEW_TASK
  | CALENDAR_VIEW
deriving DecidableEq

/-- `UserContext` (`states/context.py`). -/
structure UserContext where
  user_id : Int
  state : UserState
  active_date : Str
  calendar_month : Int
  calendar_year : Int
  task_page : Int
  last_message_id : Option Int
deriving DecidableEq

/-- Ambient process data: the configured `ROOT_ID` (`None` when the
environment variable is unset), the result of `get_today_filename()`
minus `.md`, `datetime.now()`'s month and year, and
`datetime.now().strftime("%Y-%m-%d")` as used by `toggle_task`. -/
structure Env where
  root_id : Option Int
  today_stem : Str
  now_month : Int
  now_year : Int
  today_ymd : Str

/-- Observable program state: the `StateManager._contexts` dictionary
and the daily-note files (keyed by filename inside `DAILY_NOTES_DIR`),
plus the content of `Templates/Daily.md` when that file exists. -/
structure World where
  contexts : Int → Option UserContext
  files : Str → Option Str
  template : Option Str

/-- The context created by `StateManager.get_context` for a fresh user
(`states/manager.py` lines 40-57). -/
def defaultContext (env : Env) (uid : Int) : UserContext :=
  ⟨uid, .IDLE, env.today_stem, env.now_month, env.now_year, 0, none⟩

/-- `StateManager.get_context` (`states/manager.py` lines 25-59):
returns the context, creating and storing a default one if absent. -/
def get_context (env : Env) (w : World) (uid : Int) : UserContext × World :=
  match w.contexts uid with
  | some c => (c, w)
  | none =>
    let c := defaultContext env uid
    (c, { w with contexts := fun u => if u = uid then some c else w.contexts u })

/-- Store a context under a user id. -/
def setCtx (w : World) (uid : Int) (c : UserContext) : World :=
  { w with contexts := fun u => if u = uid then some c else w.contexts u }

/-- `update_context(uid, state=st)` (`states/manager.py` lines 61-79,
at the call sites that pass only `state`). -/
def update_context_state (env : Env) (w : World) (uid : Int) (st : UserState) : World :=
  let p := get_context env w uid
  setCtx p.2 uid { p.1 with state := st }

/-- `update_context(uid, state=st, task_page=pg)`. -/
def update_context_state_page (env : Env) (w : World) (uid : Int) (st : UserState) (pg : Int) : World :=
  let p := get_context env w uid
  setCtx p.2 uid { p.1 with state := st, task_page := pg }

/-- `update_context(uid, task_page=pg)`. -/
def update_context_page (env : Env) (w : World) (uid : Int) (pg : Int) : World :=
  let p := get_context env w uid
  setCtx p.2 uid { p.1 with task_page := pg }

/-- `update_context(uid, calendar_month=m, calendar_year=y)`. -/
def update_context_cal (env : Env) (w : World) (uid : Int) (m y : Int) : World :=
  let p := get_context env w uid
  setCtx p.2 uid { p.1 with calendar_month := m, calendar_year := y }

/-- `StateManager.set_active_date` (`states/manager.py` lines 96-105). -/
def set_active_date (env : Env) (w : World) (uid : Int) (d : Str) : World :=
  let p := get_context env w uid
  setCtx p.2 uid { p.1 with active_date := d }

/-- `DAILY_NOTES_DIR / f"{date}.md"`, keyed by filename. -/
def dailyFilename (d : Str) : Str := d ++ ".md".toList

/-- Store a file (whole-file rewrite, as every write in the code is). -/
def setFile (w : World) (fname : Str) (content : Str) : World :=
  { w with files := fun f => if f = fname then some content else w.files f }

/-- The Obsidian placeholder replaced by
`create_daily_note_from_template` (`notes.py` line 38). -/
def templatePlaceholder : Str := "\x7b\x7bdate:DD-MMM-YYYY\x7d\x7d".toList

/-- The fallback skeleton written when the template file is missing
(`notes.py` lines 18-28). -/
def basicNoteContent (d : Str) : Str :=
  "---\ndate: \"[[".toList ++ d ++ "]]\"\ntitle: \"[[".toList ++ d ++
  "]]\"\ntags:\n  - daily\nОценка:\n---\n- [ ] Доброго утра!\n- [ ] Заполнить дневник\n---\n\n".toList

/-- `create_daily_note_from_template` (`notes.py` lines 11-47); the
handlers import it under the name `_create_daily_note_from_template`
(a naming slip in the source — `notes.py` defines it without the
underscore). -/
def create_daily_note_from_template (w : World) (fname : Str) (dateStr : Str) : World :=
  match w.template with
  | none => setFile w fname (basicNoteContent dateStr)
  | some t => setFile w fname (replaceAll templatePlaceholder dateStr t)

/-- The `if not filepath.exists(): _create_daily_note_from_template(...)`
pattern used by `handle_menu_tasks`, `handle_menu_note` and
`handle_cal_select`. -/
def ensure_note (w : World) (d : Str) : World :=
  if (w.files (dailyFilename d)).isSome then w
  else create_daily_note_from_template w (dailyFilename d) d

/-- The authorization gate `if ROOT_ID and user_id != ROOT_ID: reject`
(`handlers/messages.py` lines 43-46, `handlers/callbacks.py` lines
47-50, `handlers/commands.py` lines 35-38): the event is processed iff
this is `true`. -/
def isAuthorized (env : Env) (uid : Int) : Bool :=
  match env.root_id with
  | none => true
  | some r => decide (r = 0) || decide (uid = r)

/-- `handle_text_message` (`handlers/messages.py` lines 23-150) as a
world transformer.  Replies and keyboards have no world effect and are
omitted; in the fallback branch the handler's local import of
`_create_daily_note_from_template` is modelled by the intended
`create_daily_note_from_template`. -/
def handle_text_message (env : Env) (uid : Int) (rawText : Str) (w : World) : World :=
  if ¬ isAuthorized env uid then w
  else
    let text := strip rawText
    let p := get_context env w uid
    let fname := dailyFilename p.1.active_date
    match p.1.state with
    | .WAITING_RATING =>
      match pyInt text with
      | none => p.2
      | some v =>
        if v < 0 ∨ 10 < v then p.2
        else
          match p.2.files fname with
          | none => p.2
          | some content =>
            match update_rating content v with
            | none => p.2
            | some content2 => update_context_state env (setFile p.2 fname content2) uid .IDLE
    | .WAITING_NEW_TASK =>
      match p.2.files fname with
      | none => p.2
      | some content =>
        match add_task content text with
        | none => p.2
        | some content2 => update_context_state env (setFile p.2 fname content2) uid .TASKS_VIEW
    | _ =>
      let w2 := if (p.2.files fname).isSome then p.2
        else create_daily_note_from_template p.2 fname p.1.active_date
      match w2.files fname with
      | none => w2
      | some content => setFile w2 fname (content ++ text ++ ['\n'])

/-- `handle_menu_rating` (`handlers/callbacks.py` lines 135-150). -/
def handle_menu_rating (env : Env) (uid : Int) (w : World) : World :=
  let p := get_context env w uid
  update_context_state env p.2 uid .WAITING_RATING

/-- `handle_menu_tasks` (`handlers/callbacks.py` lines 153-194). -/
def handle_menu_tasks (env : Env) (uid : Int) (w : World) : World :=
  let p := get_context env w uid
  let w2 := update_context_state_page env p.2 uid .TASKS_VIEW 0
  ensure_note w2 p.1.active_date

/-- `handle_menu_note` (`handlers/callbacks.py` lines 197-246). -/
def handle_menu_note (env : Env) (uid : Int) (w : World) : World :=
  let p := get_context env w uid
  ensure_note p.2 p.1.active_date

/-- `handle_menu_calendar` (`handlers/callbacks.py` lines 249-276). -/
def handle_menu_calendar (env : Env) (uid : Int) (w : World) : World :=
  let p := get_context env w uid
  update_context_state env p.2 uid .CALENDAR_VIEW

/-- `handle_task_toggle` (`handlers/callbacks.py` lines 281-307). -/
def handle_task_toggle (env : Env) (uid : Int) (idx : Int) (w : World) : World :=
  let p := get_context env w uid
  let fname := dailyFilename p.1.active_date
  match p.2.files fname with
  | none => p.2
  | some content =>
    match toggle_task env.today_ymd content idx with
    | none => p.2
    | some c2 => setFile p.2 fname c2

/-- `handle_task_add` (`handlers/callbacks.py` lines 310-325). -/
def handle_task_add (env : Env) (uid : Int) (w : World) : World :=
  update_context_state env w uid .WAITING_NEW_TASK

/-- `handle_task_page` (`handlers/callbacks.py` lines 328-353). -/
def handle_task_page (env : Env) (uid : Int) (pg : Int) (w : World) : World :=
  let p := get_context env w uid
  update_context_page env p.2 uid pg

/-- `handle_task_back` (`handlers/callbacks.py` lines 356-374). -/
def handle_task_back (env : Env) (uid : Int) (w : World) : World :=
  let p := get_context env w uid
  update_context_state env p.2 uid .IDLE

/-- `handle_task_cancel` (`handlers/callbacks.py` lines 377-402). -/
def handle_task_cancel (env : Env) (uid : Int) (w : World) : World :=
  let p := get_context env w uid
  update_context_state env p.2 uid .TASKS_VIEW

/-- `handle_cal_prev` (`handlers/callbacks.py` lines 407-438). -/
def handle_cal_prev (env : Env) (uid : Int) (w : World) : World :=
  let p := get_context env w uid
  let my : Int × Int :=
    if p.1.calendar_month = 1 then (12, p.1.calendar_year - 1)
    else (p.1.calendar_month - 1, p.1.calendar_year)
  update_context_cal env p.2 uid my.1 my.2

/-- `handle_cal_next` (`handlers/callbacks.py` lines 441-472). -/
def handle_cal_next (env : Env) (uid : Int) (w : World) : World :=
  let p := get_context env w uid
  let my : Int × Int :=
    if p.1.calendar_month = 12 then (1, p.1.calendar_year + 1)
    else (p.1.calendar_month + 1, p.1.calendar_year)
  update_context_cal env p.2 uid my.1 my.2

/-- `handle_cal_select` (`handlers/callbacks.py` lines 475-505). -/
def handle_cal_select (env : Env) (uid : Int) (date : Str) (w : World) : World :=
  let w1 := set_active_date env w uid date
  let w2 := if (w1.files (dailyFilename date)).isSome then w1
    else create_daily_note_from_template w1 (dailyFilename date) date
  update_context_state env w2 uid .IDLE

/-- `handle_cal_today` (`handlers/callbacks.py` lines 508-541). -/
def handle_cal_today (env : Env) (uid : Int) (w : World) : World :=
  let w1 := set_active_date env w uid env.today_stem
  update_context_cal env w1 uid env.now_month env.now_year

/-- `handle_cal_back` (`handlers/callbacks.py` lines 544-562). -/
def handle_cal_back (env : Env) (uid : Int) (w : World) : World :=
  let p := get_context env w uid
  update_context_state env p.2 uid .IDLE

/-- `handle_callback` (`handlers/callbacks.py` lines 27-130): the
authorization gate followed by the `callback_data.split(":")` router.
Unknown actions and malformed parameters (the `int(...)` failures,
whose exceptions are caught by the surrounding `try`) leave the world
unchanged. -/
def handle_callback (env : Env) (uid : Int) (data : Str) (w : World) : World :=
  if ¬ isAuthorized env uid then w
  else
    match data.splitOn ':' with
    | [] => w
    | action :: rest =>
      if action = "menu".toList then
        match rest with
        | [] => w
        | ma :: _ =>
          if ma = "rating".toList then handle_menu_rating env uid w
          else if ma = "tasks".toList then handle_menu_tasks env uid w
          else if ma = "note".toList then handle_menu_note env uid w
          else if ma = "calendar".toList then handle_menu_calendar env uid w
          else w
      else if action = "task".toList then
        match rest with
        | [] => w
        | ta :: rest2 =>
          if ta = "toggle".toList then
            match rest2 with
            | [] => w
            | p2 :: _ =>
              match pyInt p2 with
              | none => w
              | some i => handle_task_toggle env uid i w
          else if ta = "add".toList then handle_task_add env uid w
          else if ta = "page".toList then
            match rest2 with
            | [] => w
            | p2 :: _ =>
              match pyInt p2 with
              | none => w
              | some i => handle_task_page env uid i w
          else if ta = "back".toList then handle_task_back env uid w
          else if ta = "cancel".toList then handle_task_cancel env uid w
          else w
      else if action = "cal".toList then
        match rest with
        | [] => w
        | ca :: rest2 =>
          if ca = "prev".toList then handle_cal_prev env uid w
          else if ca = "next".toList then handle_cal_next env uid w
          else if ca = "select".toList then
            match rest2 with
            | [] => w
            | date :: _ => handle_cal_select env uid date w
          else if ca = "today".toList then handle_cal_today env uid w
          else if ca = "back".toList then handle_cal_back env uid w
          else w
      else w

end NotesBot

namespace NotesBot

/-! ## Auxiliary definitions used only to state theorems -/

/-- Inverse of `month_abbr` on the twelve abbreviations. -/
def monthOfAbbr (s : Str) : Option Nat :=
  if s = "Jan".toList then some 1
  else if s = "Feb".toList then some 2
  else if s = "Mar".toList then some 3
  else if s = "Apr".toList then some 4
  else if s = "May".toList then some 5
  else if s = "Jun".toList then some 6
  else if s = "Jul".toList then some 7
  else if s = "Aug".toList then some 8
  else if s = "Sep".toList then some 9
  else if s = "Oct".toList then some 10
  else if s = "Nov".toList then some 11
  else if s = "Dec".toList then some 12
  else none

/-- Decoder for date-id strings, used to witness injectivity of the
construction: reads back `(year, month, day)`. -/
def decodeDateStr : Str → Option (Nat × Nat × Nat)
  | d1 :: d2 :: '-' :: a :: b :: c :: '-' :: rest =>
    match monthOfAbbr [a, b, c] with
    | none => none
    | some m => some (digitsVal rest, m, digitsVal [d1, d2])
  | _ => none

/-- Projection of a parsed task onto the fields that do not encode a
physical position in the whole file: text, completion flag and dense
index. -/
def taskView (t : Task) : Str × Bool × Nat := (t.text, t.completed, t.index)

end NotesBot

namespace NotesBot

/-! ## Fuel invariance and recurrences -/

theorem pySplitF_nil (sep : Str) (f : Nat) : pySplitF sep f [] = [[]] := by
  cases f <;> rfl

theorem pySplitF_congr (sep : Str) :
    ∀ n f1 f2 s, s.length ≤ n → s.length ≤ f1 → s.length ≤ f2 →
      pySplitF sep f1 s = pySplitF sep f2 s := by
  intro n
  induction n with
  | zero =>
    intro f1 f2 s h0 _ _
    have hs : s = [] := List.length_eq_zero.mp (Nat.le_zero.mp h0)
    subst hs
    rw [pySplitF_nil, pySplitF_nil]
  | succ n ih =>
    intro f1 f2 s hn h1 h2
    cases s with
    | nil => rw [pySplitF_nil, pySplitF_nil]
    | cons c rest =>
      simp only [List.length_cons] at hn h1 h2
      obtain ⟨g1, rfl⟩ : ∃ g, f1 = g + 1 := ⟨f1 - 1, by omega⟩
      obtain ⟨g2, rfl⟩ : ∃ g, f2 = g + 1 := ⟨f2 - 1, by omega⟩
      simp only [pySplitF]
      by_cases hpre : sep ≠ [] ∧ sep.isPrefixOf (c :: rest)
      · rw [if_pos hpre, if_pos hpre]
        have hsl : 1 ≤ sep.length := List.length_pos.mpr hpre.1
        have hdl : ((c :: rest).drop sep.length).length = rest.length + 1 - sep.length := by
          simp
        congr 1
        exact ih g1 g2 _ (by omega) (by omega) (by omega)
      · rw [if_neg hpre, if_neg hpre]
        rw [ih g1 g2 rest (by omega) (by omega) (by omega)]

theorem pySplit_nil (sep : Str) : pySplit sep [] = [[]] := rfl

theorem pySplit_cons_pos {sep : Str} (hsep : sep ≠ []) {c : Char} {rest : Str}
    (h : sep.isPrefixOf (c :: rest) = true) :
    pySplit sep (c :: rest) = [] :: pySplit sep ((c :: rest).drop sep.length) := by
  show pySplitF sep (rest.length + 1) (c :: rest) = _
  simp only [pySplitF, if_pos (And.intro hsep h)]
  have hsl : 1 ≤ sep.length := List.length_pos.mpr hsep
  congr 1
  exact pySplitF_congr sep ((c :: rest).drop sep.length).length _ _ _
    le_rfl (by simp; omega) le_rfl

theorem pySplit_ne_nil (sep : Str) (s : Str) : pySplit sep s ≠ [] := by
  show pySplitF sep s.length s ≠ []
  generalize s.length = f
  induction f generalizing s with
  | zero => cases s <;> simp [pySplitF]
  | succ f ih =>
    cases s with
    | nil => simp [pySplitF]
    | cons c rest =>
      simp only [pySplitF]
      by_cases hpre : sep ≠ [] ∧ sep.isPrefixOf (c :: rest)
      · rw [if_pos hpre]; simp
      · rw [if_neg hpre]
        cases hq : pySplitF sep f rest <;> simp

theorem pySplit_cons_neg {sep : Str} (hsep : sep ≠ []) {c : Char} {rest : Str}
    (h : ¬ sep.isPrefixOf (c :: rest) = true) :
    pySplit sep (c :: rest) = List.modifyHead (c :: ·) (pySplit sep rest) := by
  show pySplitF sep (rest.length + 1) (c :: rest) = _
  simp only [pySplitF]
  rw [if_neg (by rintro ⟨_, hc⟩; exact h hc)]
  have heq : pySplitF sep rest.length rest = pySplit sep rest := rfl
  rw [heq]
  cases hq : pySplit sep rest with
  | nil => exact absurd hq (pySplit_ne_nil sep rest)
  | cons a t => rfl

theorem natStrF_congr :
    ∀ n f1 f2, n < f1 → n < f2 → natStrF f1 n = natStrF f2 n := by
  intro n
  induction n using Nat.strong_induction_on with
  | _ n ih =>
    intro f1 f2 h1 h2
    obtain ⟨g1, rfl⟩ : ∃ g, f1 = g + 1 := ⟨f1 - 1, by omega⟩
    obtain ⟨g2, rfl⟩ : ∃ g, f2 = g + 1 := ⟨f2 - 1, by omega⟩
    simp only [natStrF]
    by_cases hsm : n < 10
    · rw [if_pos hsm, if_pos hsm]
    · rw [if_neg hsm, if_neg hsm]
      have hdiv : n / 10 < n := Nat.div_lt_self (by omega) (by omega)
      rw [ih (n / 10) hdiv g1 g2 (by omega) (by omega)]

theorem natStr_eq (n : Nat) :
    natStr n = if n < 10 then [Nat.digitChar n] else natStr (n / 10) ++ [Nat.digitChar (n % 10)] := by
  show natStrF (n + 1) n = _
  simp only [natStrF]
  by_cases hsm : n < 10
  · rw [if_pos hsm, if_pos hsm]
  · rw [if_neg hsm, if_neg hsm]
    have hdiv : n / 10 < n := Nat.div_lt_self (by omega) (by omega)
    rw [natStrF_congr (n / 10) n (n / 10 + 1) (by omega) (by omega)]
    rfl

theorem digitsVal_append (A : Str) (c : Char) :
    digitsVal (A ++ [c]) = digitsVal A * 10 + (c.toNat - 48) := by
  simp [digitsVal, List.foldl_append]

theorem digitsVal_natStr (n : Nat) : digitsVal (natStr n) = n := by
  induction n using Nat.strong_induction_on with
  | _ n ih =>
    rw [natStr_eq]
    by_cases hsm : n < 10
    · rw [if_pos hsm]
      interval_cases n <;> rfl
    · rw [if_neg hsm]
      rw [digitsVal_append, ih (n / 10) (Nat.div_lt_self (by omega) (by omega))]
      have hmod : n % 10 < 10 := Nat.mod_lt _ (by omega)
      have hdc : ∀ m, m < 10 → (Nat.digitChar m).toNat - 48 = m := by decide
      rw [hdc _ hmod]
      omega

end NotesBot

namespace NotesBot

theorem pad2_spec : ∀ d, d < 100 → (pad2 d).length = 2 ∧ digitsVal (pad2 d) = d := by
  decide

theorem decode_cellDateStr (y m d : Nat) (hm1 : 1 ≤ m) (hm2 : m ≤ 12)
    (hd1 : 1 ≤ d) (hd2 : d ≤ 31) :
    decodeDateStr (cellDateStr y m d) = some (y, m, d) := by
  obtain ⟨hl, hv⟩ := pad2_spec d (by omega)
  obtain ⟨c1, c2, hp⟩ : ∃ c1 c2, pad2 d = [c1, c2] := by
    cases hq : pad2 d with
    | nil => rw [hq] at hl; simp at hl
    | cons a t =>
      cases t with
      | nil => rw [hq] at hl; simp at hl
      | cons b t2 =>
        cases t2 with
        | nil => exact ⟨a, b, rfl⟩
        | cons e t3 => rw [hq] at hl; simp at hl
  rw [hp] at hv
  have hcell : cellDateStr y m d = c1 :: c2 :: '-' :: (month_abbr m ++ '-' :: natStr y) := by
    simp [cellDateStr, hp]
  interval_cases m <;>
    simp only [month_abbr] at hcell <;>
    rw [hcell] <;>
    simp [decodeDateStr, monthOfAbbr, digitsVal_natStr, hv, String.toList]

/-- Injectivity of the calendar date-id construction on valid dates. -/
theorem cellDateStr_inj {y m d y2 m2 d2 : Nat}
    (hm : 1 ≤ m ∧ m ≤ 12) (hd : 1 ≤ d ∧ d ≤ 31)
    (hm2 : 1 ≤ m2 ∧ m2 ≤ 12) (hd2 : 1 ≤ d2 ∧ d2 ≤ 31)
    (h : cellDateStr y m d = cellDateStr y2 m2 d2) : y = y2 ∧ m = m2 ∧ d = d2 := by
  have e1 := decode_cellDateStr y m d hm.1 hm.2 hd.1 hd.2
  have e2 := decode_cellDateStr y2 m2 d2 hm2.1 hm2.2 hd2.1 hd2.2
  rw [h, e2] at e1
  simp only [Option.some.injEq, Prod.mk.injEq] at e1
  exact ⟨e1.1.symm, e1.2.1.symm, e1.2.2.symm⟩

/-- **C7.** For every valid year, month and day, the calendar cell's
date-id string (zero-padded 2-digit day, 3-letter month abbreviation,
full year, `keyboards/calendar.py` line 72) is byte-for-byte the
filename stem `NoteStore` produces for the same date
(`utils.py`, `strftime('%d-%b-%Y')`); the construction is injective on
valid dates; and day 5 of February 2025 renders as `05-Feb-2025`. -/
theorem calendar_dateid_matches_stem_and_injective
    (y m d y2 m2 d2 : Nat)
    (hm : 1 ≤ m ∧ m ≤ 12) (hd : 1 ≤ d ∧ d ≤ 31)
    (hm2 : 1 ≤ m2 ∧ m2 ≤ 12) (hd2 : 1 ≤ d2 ∧ d2 ≤ 31) :
    cellDateStr y m d = strftimeDdbY y m d ∧
    todayFilenameFor y m d = cellDateStr y m d ++ ".md".toList ∧
    (cellDateStr y m d = cellDateStr y2 m2 d2 → y = y2 ∧ m = m2 ∧ d = d2) ∧
    cellDateStr 2025 2 5 = "05-Feb-2025".toList := by
  refine ⟨rfl, rfl, fun h => cellDateStr_inj hm hd hm2 hd2 h, by decide⟩

/-- Witness for C7 at concrete dates. -/
theorem calendar_dateid_matches_stem_and_injective_witness :
    cellDateStr 2025 2 5 = strftimeDdbY 2025 2 5 ∧
    todayFilenameFor 2025 2 5 = cellDateStr 2025 2 5 ++ ".md".toList ∧
    (cellDateStr 2025 2 5 = cellDateStr 1999 12 31 → 2025 = 1999 ∧ 2 = 12 ∧ 5 = 31) ∧
    cellDateStr 2025 2 5 = "05-Feb-2025".toList :=
  calendar_dateid_matches_stem_and_injective 2025 2 5 1999 12 31
    (by decide) (by decide) (by decide) (by decide)

end NotesBot

namespace NotesBot

theorem toggle_callback_ne_noop (x : Str) :
    "task:toggle:".toList ++ x ≠ "task:noop".toList := by
  intro h
  have h5 : ('t' : Char) = 'n' := congrArg (fun l => l.getD 5 ' ') h
  exact absurd h5 (by decide)

theorem noop_mem_tasks_keyboard_iff (tasks : List Task) (page per : Nat) :
    (∃ row ∈ get_tasks_keyboard tasks page per, ∃ b ∈ row,
        b.callback_data = "task:noop".toList)
    ↔ 1 < (tasks.length + per - 1) / per := by
  simp only [get_tasks_keyboard]
  constructor
  · rintro ⟨row, hrow, b, hb, hcb⟩
    by_contra hle
    rw [if_neg hle] at hrow
    simp only [List.append_nil, List.mem_append, List.mem_singleton, List.mem_map] at hrow
    rcases hrow with (⟨t, _, rfl⟩ | rfl) | rfl
    · simp only [List.mem_singleton] at hb
      subst hb
      exact toggle_callback_ne_noop _ hcb
    · simp only [List.mem_singleton] at hb
      subst hb
      exact absurd hcb (by decide)
    · simp only [List.mem_singleton] at hb
      subst hb
      exact absurd hcb (by decide)
  · intro hgt
    rw [if_pos hgt]
    refine ⟨_, List.mem_append.mpr (Or.inl (List.mem_append.mpr (Or.inr
      (List.mem_singleton.mpr rfl)))), ?_⟩
    refine ⟨⟨natStr (page + 1) ++ '/' :: natStr ((tasks.length + per - 1) / per),
        "task:noop".toList⟩, ?_, rfl⟩
    simp [List.mem_append]

/-- **C8.** For any list of 12 tasks (indices dense 0..11, as
`parse_tasks` produces them) and page size 5, `get_tasks_keyboard`
computes `totalPages = (12 + 5 - 1) / 5 = 3`; page 0 shows exactly
tasks 0-4 followed by the add-task button, a pagination row with the
`1/3` indicator and only a next arrow, and the back button; page 2
shows exactly tasks 10-11 with a `3/3` indicator and only a prev
arrow; and for every task list and page, a pagination row (recognised
by its `task:noop` indicator button) is present iff there is more than
one page. -/
theorem tasks_keyboard_pagination
    (x0 x1 x2 x3 x4 x5 x6 x7 x8 x9 x10 x11 : Str)
    (c0 c1 c2 c3 c4 c5 c6 c7 c8 c9 c10 c11 : Bool)
    (l0 l1 l2 l3 l4 l5 l6 l7 l8 l9 l10 l11 : Nat) :
    (([⟨x0, c0, 0, l0⟩, ⟨x1, c1, 1, l1⟩, ⟨x2, c2, 2, l2⟩, ⟨x3, c3, 3, l3⟩,
       ⟨x4, c4, 4, l4⟩, ⟨x5, c5, 5, l5⟩, ⟨x6, c6, 6, l6⟩, ⟨x7, c7, 7, l7⟩,
       ⟨x8, c8, 8, l8⟩, ⟨x9, c9, 9, l9⟩, ⟨x10, c10, 10, l10⟩,
       (⟨x11, c11, 11, l11⟩ : Task)].length + 5 - 1) / 5 = 3) ∧
    (get_tasks_keyboard [⟨x0, c0, 0, l0⟩, ⟨x1, c1, 1, l1⟩, ⟨x2, c2, 2, l2⟩,
       ⟨x3, c3, 3, l3⟩, ⟨x4, c4, 4, l4⟩, ⟨x5, c5, 5, l5⟩, ⟨x6, c6, 6, l6⟩,
       ⟨x7, c7, 7, l7⟩, ⟨x8, c8, 8, l8⟩, ⟨x9, c9, 9, l9⟩, ⟨x10, c10, 10, l10⟩,
       ⟨x11, c11, 11, l11⟩] 0 5).map (List.map Button.callback_data) =
      [["task:toggle:0".toList], ["task:toggle:1".toList], ["task:toggle:2".toList],
       ["task:toggle:3".toList], ["task:toggle:4".toList], ["task:add".toList],
       ["task:noop".toList, "task:page:1".toList], ["task:back".toList]] ∧
    (get_tasks_keyboard [⟨x0, c0, 0, l0⟩, ⟨x1, c1, 1, l1⟩, ⟨x2, c2, 2, l2⟩,
       ⟨x3, c3, 3, l3⟩, ⟨x4, c4, 4, l4⟩, ⟨x5, c5, 5, l5⟩, ⟨x6, c6, 6, l6⟩,
       ⟨x7, c7, 7, l7⟩, ⟨x8, c8, 8, l8⟩, ⟨x9, c9, 9, l9⟩, ⟨x10, c10, 10, l10⟩,
       ⟨x11, c11, 11, l11⟩] 0 5).getD 6 [] =
      [⟨"1/3".toList, "task:noop".toList⟩, ⟨"▶".toList, "task:page:1".toList⟩] ∧
    (get_tasks_keyboard [⟨x0, c0, 0, l0⟩, ⟨x1, c1, 1, l1⟩, ⟨x2, c2, 2, l2⟩,
       ⟨x3, c3, 3, l3⟩, ⟨x4, c4, 4, l4⟩, ⟨x5, c5, 5, l5⟩, ⟨x6, c6, 6, l6⟩,
       ⟨x7, c7, 7, l7⟩, ⟨x8, c8, 8, l8⟩, ⟨x9, c9, 9, l9⟩, ⟨x10, c10, 10, l10⟩,
       ⟨x11, c11, 11, l11⟩] 2 5).map (List.map Button.callback_data) =
      [["task:toggle:10".toList], ["task:toggle:11".toList], ["task:add".toList],
       ["task:page:1".toList, "task:noop".toList], ["task:back".toList]] ∧
    (get_tasks_keyboard [⟨x0, c0, 0, l0⟩, ⟨x1, c1, 1, l1⟩, ⟨x2, c2, 2, l2⟩,
       ⟨x3, c3, 3, l3⟩, ⟨x4, c4, 4, l4⟩, ⟨x5, c5, 5, l5⟩, ⟨x6, c6, 6, l6⟩,
       ⟨x7, c7, 7, l7⟩, ⟨x8, c8, 8, l8⟩, ⟨x9, c9, 9, l9⟩, ⟨x10, c10, 10, l10⟩,
       ⟨x11, c11, 11, l11⟩] 2 5).getD 3 [] =
      [⟨"◀".toList, "task:page:1".toList⟩, ⟨"3/3".toList, "task:noop".toList⟩] ∧
    (∀ (tasks : List Task) (page per : Nat),
      (∃ row ∈ get_tasks_keyboard tasks page per, ∃ b ∈ row,
          b.callback_data = "task:noop".toList) ↔
      1 < (tasks.length + per - 1) / per) :=
  by
  refine ⟨?_, ?_, ?_, ?_, ?_, noop_mem_tasks_keyboard_iff⟩ <;>
  · simp only [get_tasks_keyboard, List.length_cons, List.length_nil, List.map_cons,
      List.map_nil, List.drop_succ_cons, List.drop_zero, List.take_succ_cons,
      List.take_zero, List.map_append]
    try norm_num
    try decide


end NotesBot

namespace NotesBot

theorem get_context_of_some {env : Env} {w : World} {uid : Int} {c : UserContext}
    (h : w.contexts uid = some c) : get_context env w uid = (c, w) := by
  simp [get_context, h]

theorem setFile_contexts (w : World) (f c : Str) :
    (setFile w f c).contexts = w.contexts := rfl

/-- **C9.** With a configured (truthy) owner id, every text event and
every callback event from a different user id is rejected up front:
the world (all note files, all session contexts) is left completely
unchanged. -/
theorem unauthorized_events_have_no_effect
    (env : Env) (uid r : Int) (text data : Str) (w : World)
    (hr : env.root_id = some r) (hr0 : r ≠ 0) (hne : uid ≠ r) :
    handle_text_message env uid text w = w ∧
    handle_callback env uid data w = w := by
  have hauth : isAuthorized env uid = false := by
    simp [isAuthorized, hr, hr0, hne]
  constructor
  · simp [handle_text_message, hauth]
  · simp [handle_callback, hauth]

/-- Witness for C9: a concrete non-owner event. -/
theorem unauthorized_events_have_no_effect_witness :
    handle_text_message ⟨some 1, "01-Jan-2025".toList, 1, 2025, "2025-01-01".toList⟩ 2
        "hello".toList ⟨fun _ => none, fun _ => none, none⟩ =
      ⟨fun _ => none, fun _ => none, none⟩ ∧
    handle_callback ⟨some 1, "01-Jan-2025".toList, 1, 2025, "2025-01-01".toList⟩ 2
        "menu:rating".toList ⟨fun _ => none, fun _ => none, none⟩ =
      ⟨fun _ => none, fun _ => none, none⟩ :=
  unauthorized_events_have_no_effect _ 2 1 _ _ _ rfl (by decide) (by decide)

/-- **C10.** For an existing session context, the `task:back` and
`cal:back` events update only the `state` field (to `IDLE`): active
date, calendar cursor, task page and last message id survive, no file
is touched, and other users' contexts are untouched. -/
theorem back_events_only_reset_state
    (env : Env) (uid : Int) (w : World) (ctx : UserContext)
    (hctx : w.contexts uid = some ctx)
    (hauth : isAuthorized env uid = true) :
    (handle_callback env uid "task:back".toList w).contexts uid
        = some { ctx with state := .IDLE } ∧
    (handle_callback env uid "cal:back".toList w).contexts uid
        = some { ctx with state := .IDLE } ∧
    (handle_callback env uid "task:back".toList w).files = w.files ∧
    (handle_callback env uid "cal:back".toList w).files = w.files ∧
    (∀ u, u ≠ uid →
      (handle_callback env uid "task:back".toList w).contexts u = w.contexts u ∧
      (handle_callback env uid "cal:back".toList w).contexts u = w.contexts u) := by
  have htb : handle_callback env uid "task:back".toList w =
      if ¬ isAuthorized env uid then w else handle_task_back env uid w := rfl
  have hcb : handle_callback env uid "cal:back".toList w =
      if ¬ isAuthorized env uid then w else handle_cal_back env uid w := rfl
  rw [htb, hcb, hauth]
  simp only [Bool.not_true, Bool.false_eq_true, if_false]
  have h1 : handle_task_back env uid w =
      setCtx w uid { ctx with state := .IDLE } := by
    simp [handle_task_back, update_context_state, get_context_of_some hctx]
  have h2 : handle_cal_back env uid w =
      setCtx w uid { ctx with state := .IDLE } := by
    simp [handle_cal_back, update_context_state, get_context_of_some hctx]
  rw [h1, h2]
  refine ⟨?_, ?_, rfl, rfl, ?_⟩
  · simp [setCtx]
  · simp [setCtx]
  · intro u hu
    constructor <;> simp [setCtx, hu]

/-- Witness for C10 at a concrete world with an existing context. -/
theorem back_events_only_reset_state_witness :
    (handle_callback ⟨some 1, "01-Jan-2025".toList, 1, 2025, "2025-01-01".toList⟩ 1
        "task:back".toList
        ⟨fun u => if u = 1 then some ⟨1, .TASKS_VIEW, "05-Feb-2025".toList, 2, 2025, 3, some 77⟩
          else none, fun _ => none, none⟩).contexts 1
      = some ⟨1, .IDLE, "05-Feb-2025".toList, 2, 2025, 3, some 77⟩ ∧
    (handle_callback ⟨some 1, "01-Jan-2025".toList, 1, 2025, "2025-01-01".toList⟩ 1
        "cal:back".toList
        ⟨fun u => if u = 1 then some ⟨1, .TASKS_VIEW, "05-Feb-2025".toList, 2, 2025, 3, some 77⟩
          else none, fun _ => none, none⟩).contexts 1
      = some ⟨1, .IDLE, "05-Feb-2025".toList, 2, 2025, 3, some 77⟩ ∧
    (handle_callback ⟨some 1, "01-Jan-2025".toList, 1, 2025, "2025-01-01".toList⟩ 1
        "task:back".toList
        ⟨fun u => if u = 1 then some ⟨1, .TASKS_VIEW, "05-Feb-2025".toList, 2, 2025, 3, some 77⟩
          else none, fun _ => none, none⟩).files
      = (⟨fun u => if u = 1 then some ⟨1, .TASKS_VIEW, "05-Feb-2025".toList, 2, 2025, 3, some 77⟩
          else none, fun _ => none, none⟩ : World).files ∧
    (handle_callback ⟨some 1, "01-Jan-2025".toList, 1, 2025, "2025-01-01".toList⟩ 1
        "cal:back".toList
        ⟨fun u => if u = 1 then some ⟨1, .TASKS_VIEW, "05-Feb-2025".toList, 2, 2025, 3, some 77⟩
          else none, fun _ => none, none⟩).files
      = (⟨fun u => if u = 1 then some ⟨1, .TASKS_VIEW, "05-Feb-2025".toList, 2, 2025, 3, some 77⟩
          else none, fun _ => none, none⟩ : World).files ∧
    (∀ u, u ≠ 1 →
      (handle_callback ⟨some 1, "01-Jan-2025".toList, 1, 2025, "2025-01-01".toList⟩ 1
          "task:back".toList
          ⟨fun u => if u = 1 then some ⟨1, .TASKS_VIEW, "05-Feb-2025".toList, 2, 2025, 3, some 77⟩
            else none, fun _ => none, none⟩).contexts u
        = (⟨fun u => if u = 1 then some ⟨1, .TASKS_VIEW, "05-Feb-2025".toList, 2, 2025, 3, some 77⟩
            else none, fun _ => none, none⟩ : World).contexts u ∧
      (handle_callback ⟨some 1, "01-Jan-2025".toList, 1, 2025, "2025-01-01".toList⟩ 1
          "cal:back".toList
          ⟨fun u => if u = 1 then some ⟨1, .TASKS_VIEW, "05-Feb-2025".toList, 2, 2025, 3, some 77⟩
            else none, fun _ => none, none⟩).contexts u
        = (⟨fun u => if u = 1 then some ⟨1, .TASKS_VIEW, "05-Feb-2025".toList, 2, 2025, 3, some 77⟩
            else none, fun _ => none, none⟩ : World).contexts u) :=
  back_events_only_reset_state _ 1 _ ⟨1, .TASKS_VIEW, "05-Feb-2025".toList, 2, 2025, 3, some 77⟩
    (by decide) (by decide)

end NotesBot

namespace NotesBot

end NotesBot

namespace NotesBot

end NotesBot

namespace NotesBot

/-! ## Substring toolkit -/

theorem prefix_append_cases {α : Type} {tok A B : List α} (h : tok <+: A ++ B) :
    tok <+: A ∨ (A <+: tok ∧ tok.drop A.length <+: B) := by
  rcases le_or_lt tok.length A.length with hle | hlt
  · left
    rw [List.prefix_iff_eq_take, List.take_append_of_le_length hle] at h
    rw [h]
    exact List.take_prefix _ _
  · right
    obtain ⟨t, ht⟩ := h
    have hA : A = tok.take A.length := by
      have h3 := congrArg (List.take A.length) ht
      rw [List.take_left, List.take_append_of_le_length (Nat.le_of_lt hlt)] at h3
      exact h3.symm
    have hd : tok.drop A.length ++ t = B := by
      have h2 := congrArg (List.drop A.length) ht
      rw [List.drop_left, List.drop_append_eq_append_drop,
        Nat.sub_eq_zero_of_le (Nat.le_of_lt hlt), List.drop_zero] at h2
      exact h2
    refine ⟨⟨tok.drop A.length, ?_⟩, ⟨t, hd⟩⟩
    conv_rhs => rw [← List.take_append_drop A.length tok]
    rw [← hA]

theorem infix_append_cases {α : Type} {tok A B : List α} (h : tok <:+: A ++ B) :
    tok <:+: A ∨ tok <:+: B ∨
      ∃ k, 0 < k ∧ k < tok.length ∧ tok.take k <:+ A ∧ tok.drop k <+: B := by
  induction A with
  | nil =>
    right; left
    simpa using h
  | cons a A ih =>
    rw [List.cons_append, List.infix_cons_iff] at h
    rcases h with hpre | hinf
    · rcases @prefix_append_cases _ tok (a :: A) B hpre with h1 | ⟨h2, h3⟩
      · exact Or.inl h1.isInfix
      · by_cases hlen : tok.length ≤ (a :: A).length
        · left
          have he : a :: A = tok := List.IsPrefix.eq_of_length_le h2 hlen
          rw [← he]
        · right; right
          refine ⟨(a :: A).length, by simp, by omega, ?_, h3⟩
          rw [List.prefix_iff_eq_take] at h2
          rw [← h2]
    · rcases ih hinf with h1 | h2 | ⟨k, hk0, hkl, hks, hkp⟩
      · exact Or.inl (List.infix_cons h1)
      · exact Or.inr (Or.inl h2)
      · exact Or.inr (Or.inr ⟨k, hk0, hkl, hks.trans (List.suffix_cons a A), hkp⟩)

theorem infix_append_left {α : Type} {tok A : List α} (B : List α) (h : tok <:+: A) :
    tok <:+: A ++ B := by
  obtain ⟨pre, post, rfl⟩ := h
  exact ⟨pre, post ++ B, by simp⟩

theorem containsSub_iff_infix (pat s : Str) : containsSub pat s = true ↔ pat <:+: s := by
  induction s with
  | nil =>
    simp only [containsSub, List.isEmpty_iff]
    constructor
    · intro h; rw [h]
    · intro h; exact List.eq_nil_of_infix_nil h
  | cons c rest ih =>
    simp only [containsSub, Bool.or_eq_true, List.isPrefixOf_iff_prefix, ih,
      List.infix_cons_iff]

end NotesBot

namespace NotesBot

/-! ## Structural lemmas for `pySplit` -/

theorem intercalate_cons_of_ne_nil (sep x : Str) {xs : List Str} (h : xs ≠ []) :
    List.intercalate sep (x :: xs) = x ++ sep ++ List.intercalate sep xs := by
  cases xs with
  | nil => exact absurd rfl h
  | cons y t =>
    simp only [List.intercalate, List.intersperse, List.flatten_cons, List.append_assoc]

theorem pySplit_head_prefix (sep : Str) (hsep : sep ≠ []) :
    ∀ n s, s.length ≤ n → ∀ h t, pySplit sep s = h :: t → h <+: s := by
  intro n
  induction n with
  | zero =>
    intro s hlen h t hsplit
    have hs : s = [] := List.length_eq_zero.mp (Nat.le_zero.mp hlen)
    subst hs
    rw [pySplit_nil] at hsplit
    injection hsplit with h1 _
    rw [← h1]
  | succ n ih =>
    intro s hlen h t hsplit
    cases s with
    | nil =>
      rw [pySplit_nil] at hsplit
      injection hsplit with h1 _
      rw [← h1]
    | cons c rest =>
      by_cases hp : sep.isPrefixOf (c :: rest)
      · rw [pySplit_cons_pos hsep hp] at hsplit
        injection hsplit with h1 _
        rw [← h1]
        exact List.nil_prefix
      · rw [pySplit_cons_neg hsep hp] at hsplit
        rcases hq : pySplit sep rest with _ | ⟨h', t'⟩
        · exact absurd hq (pySplit_ne_nil sep rest)
        · rw [hq] at hsplit
          simp only [List.modifyHead] at hsplit
          injection hsplit with h1 _
          rw [← h1]
          have hpre : h' <+: rest := ih rest (by simp at hlen; omega) h' t' hq
          exact List.cons_prefix_cons.mpr ⟨rfl, hpre⟩

theorem not_infix_of_mem_pySplit (sep : Str) (hsep : sep ≠ []) :
    ∀ n s, s.length ≤ n → ∀ p ∈ pySplit sep s, ¬ sep <:+: p := by
  intro n
  induction n with
  | zero =>
    intro s hlen p hp
    have hs : s = [] := List.length_eq_zero.mp (Nat.le_zero.mp hlen)
    subst hs
    rw [pySplit_nil] at hp
    simp only [List.mem_singleton] at hp
    subst hp
    intro hinf
    exact hsep (List.eq_nil_of_infix_nil hinf)
  | succ n ih =>
    intro s hlen p hp
    cases s with
    | nil =>
      rw [pySplit_nil] at hp
      simp only [List.mem_singleton] at hp
      subst hp
      intro hinf
      exact hsep (List.eq_nil_of_infix_nil hinf)
    | cons c rest =>
      simp only [List.length_cons] at hlen
      by_cases hpr : sep.isPrefixOf (c :: rest)
      · rw [pySplit_cons_pos hsep hpr] at hp
        rcases List.mem_cons.mp hp with rfl | hp2
        · intro hinf
          exact hsep (List.eq_nil_of_infix_nil hinf)
        · refine ih _ ?_ p hp2
          have h1 : 1 ≤ sep.length := List.length_pos.mpr hsep
          simp only [List.length_drop, List.length_cons]
          omega
      · rw [pySplit_cons_neg hsep hpr] at hp
        rcases hq : pySplit sep rest with _ | ⟨h', t'⟩
        · exact absurd hq (pySplit_ne_nil sep rest)
        · rw [hq] at hp
          simp only [List.modifyHead] at hp
          rcases List.mem_cons.mp hp with rfl | hp2
          · intro hinf
            rcases List.infix_cons_iff.mp hinf with hpre | hinf2
            · have : h' <+: rest :=
                pySplit_head_prefix sep hsep n rest (by omega) h' t' hq
              have : sep <+: c :: rest :=
                hpre.trans (List.cons_prefix_cons.mpr ⟨rfl, this⟩)
              exact hpr (List.isPrefixOf_iff_prefix.mpr this)
            · exact ih rest (by omega) h' (by rw [hq]; exact List.mem_cons_self _ _) hinf2
          · exact ih rest (by omega) p (by rw [hq]; exact List.mem_cons_of_mem _ hp2)

theorem intercalate_pySplit (sep : Str) (hsep : sep ≠ []) :
    ∀ n s, s.length ≤ n → List.intercalate sep (pySplit sep s) = s := by
  intro n
  induction n with
  | zero =>
    intro s hlen
    have hs : s = [] := List.length_eq_zero.mp (Nat.le_zero.mp hlen)
    subst hs
    rw [pySplit_nil]
    simp [List.intercalate]
  | succ n ih =>
    intro s hlen
    cases s with
    | nil =>
      rw [pySplit_nil]
      simp [List.intercalate]
    | cons c rest =>
      simp only [List.length_cons] at hlen
      by_cases hpr : sep.isPrefixOf (c :: rest)
      · rw [pySplit_cons_pos hsep hpr]
        rw [intercalate_cons_of_ne_nil sep [] (pySplit_ne_nil sep _)]
        have hlen2 : ((c :: rest).drop sep.length).length ≤ n := by
          simp only [List.length_drop, List.length_cons]
          have : 1 ≤ sep.length := List.length_pos.mpr hsep
          omega
        rw [ih _ hlen2]
        rw [List.nil_append]
        have hpre := List.isPrefixOf_iff_prefix.mp hpr
        rw [List.prefix_iff_eq_take] at hpre
        conv_rhs => rw [← List.take_append_drop sep.length (c :: rest)]
        rw [← hpre]
      · rw [pySplit_cons_neg hsep hpr]
        rcases hq : pySplit sep rest with _ | ⟨h', t'⟩
        · exact absurd hq (pySplit_ne_nil sep rest)
        · simp only [List.modifyHead]
          have hrest : List.intercalate sep (h' :: t') = rest := by
            rw [← hq]
            exact ih rest (by omega)
          cases t' with
          | nil =>
            simp only [List.intercalate, List.intersperse, List.flatten_cons,
              List.flatten_nil, List.append_nil] at hrest ⊢
            rw [hrest]
          | cons u v =>
            rw [intercalate_cons_of_ne_nil sep _ (by simp)] at hrest ⊢
            rw [List.cons_append, List.cons_append, hrest]

theorem pySplit_eq_single (sep : Str) (hsep : sep ≠ []) :
    ∀ n s, s.length ≤ n → ¬ sep <:+: s → pySplit sep s = [s] := by
  intro n
  induction n with
  | zero =>
    intro s hlen _
    have hs : s = [] := List.length_eq_zero.mp (Nat.le_zero.mp hlen)
    subst hs
    exact pySplit_nil sep
  | succ n ih =>
    intro s hlen hinf
    cases s with
    | nil => exact pySplit_nil sep
    | cons c rest =>
      simp only [List.length_cons] at hlen
      by_cases hpr : sep.isPrefixOf (c :: rest)
      · exact absurd (List.isPrefixOf_iff_prefix.mp hpr).isInfix hinf
      · rw [pySplit_cons_neg hsep hpr]
        rw [ih rest (by omega) (fun h2 => hinf (List.infix_cons h2))]
        rfl

end NotesBot

namespace NotesBot

/-! ## `---`-specific splitting lemmas -/

theorem delim_eq : delim = ['-', '-', '-'] := rfl

theorem delim_ne_nil : delim ≠ [] := by decide

theorem getLast?_cons_ne_nil {c : Char} {p : Str} (h : p ≠ []) :
    (c :: p).getLast? = p.getLast? := by
  cases p with
  | nil => exact absurd rfl h
  | cons d q => rfl

/-- If `p = c :: p'` contains no `---` and does not end in `-`, then
`---` is not a prefix of `p ++ --- ++ t`. -/
theorem delim_not_prefix_of_clean {c : Char} {p' : Str} (t : Str)
    (hinf : ¬ delim <:+: (c :: p'))
    (hlast : (c :: p').getLast? ≠ some '-') :
    ¬ delim.isPrefixOf (c :: p' ++ delim ++ t) := by
  rw [List.isPrefixOf_iff_prefix]
  intro hpre
  rw [delim_eq] at hpre
  cases p' with
  | nil =>
    rcases List.cons_prefix_cons.mp hpre with ⟨rfl, _⟩
    exact hlast rfl
  | cons d p'' =>
    rcases List.cons_prefix_cons.mp hpre with ⟨rfl, hpre2⟩
    cases p'' with
    | nil =>
      rcases List.cons_prefix_cons.mp hpre2 with ⟨rfl, _⟩
      exact hlast rfl
    | cons e p3 =>
      rcases List.cons_prefix_cons.mp hpre2 with ⟨rfl, hpre3⟩
      rcases List.cons_prefix_cons.mp hpre3 with ⟨rfl, _⟩
      exact hinf ⟨[], p3, by rw [delim_eq]; rfl⟩

theorem pySplit_append_delim :
    ∀ p t : Str, ¬ delim <:+: p → (p ≠ [] → p.getLast? ≠ some '-') →
      pySplit delim (p ++ delim ++ t) = p :: pySplit delim t := by
  intro p
  induction p with
  | nil =>
    intro t _ _
    rw [List.nil_append]
    have hpr : delim.isPrefixOf (delim ++ t) :=
      List.isPrefixOf_iff_prefix.mpr (List.prefix_append delim t)
    rw [show delim ++ t = '-' :: ('-' :: '-' :: t) from rfl] at hpr ⊢
    rw [pySplit_cons_pos delim_ne_nil hpr]
    rfl
  | cons c p' ih =>
    intro t hinf hlast
    have hnp := delim_not_prefix_of_clean t hinf (hlast (by simp))
    simp only [List.cons_append] at hnp
    rw [List.cons_append, List.cons_append]
    rw [pySplit_cons_neg delim_ne_nil hnp]
    rw [ih t (fun h2 => hinf (List.infix_cons h2))
      (fun hne => by rw [← @getLast?_cons_ne_nil c _ hne]; exact hlast (by simp))]
    rfl

theorem findSub_append_delim :
    ∀ p t : Str, ¬ delim <:+: p → (p ≠ [] → p.getLast? ≠ some '-') →
      findSub delim (p ++ delim ++ t) = some p.length := by
  intro p
  induction p with
  | nil =>
    intro t _ _
    rw [List.nil_append]
    have hpr : delim.isPrefixOf (delim ++ t) :=
      List.isPrefixOf_iff_prefix.mpr (List.prefix_append delim t)
    rw [show delim ++ t = '-' :: ('-' :: '-' :: t) from rfl] at hpr ⊢
    simp only [findSub, if_pos hpr]
    rfl
  | cons c p' ih =>
    intro t hinf hlast
    have hnp := delim_not_prefix_of_clean t hinf (hlast (by simp))
    simp only [List.cons_append] at hnp
    rw [List.cons_append, List.cons_append]
    simp only [findSub]
    rw [if_neg hnp]
    rw [ih t (fun h2 => hinf (List.infix_cons h2))
      (fun hne => by rw [← @getLast?_cons_ne_nil c _ hne]; exact hlast (by simp))]
    rfl

end NotesBot

namespace NotesBot

theorem pySplit_parts_not_enddash :
    ∀ n s, s.length ≤ n → ∀ p ∈ (pySplit delim s).dropLast, p.getLast? ≠ some '-' := by
  intro n
  induction n with
  | zero =>
    intro s hlen p hp
    have hs : s = [] := List.length_eq_zero.mp (Nat.le_zero.mp hlen)
    subst hs
    rw [pySplit_nil] at hp
    simp at hp
  | succ n ih =>
    intro s hlen p hp
    cases s with
    | nil =>
      rw [pySplit_nil] at hp
      simp at hp
    | cons c rest =>
      simp only [List.length_cons] at hlen
      by_cases hpr : delim.isPrefixOf (c :: rest)
      · rw [pySplit_cons_pos delim_ne_nil hpr] at hp
        rcases hq : pySplit delim ((c :: rest).drop delim.length) with _ | ⟨h', t'⟩
        · exact absurd hq (pySplit_ne_nil _ _)
        · rw [hq, List.dropLast_cons_of_ne_nil (by simp)] at hp
          rcases List.mem_cons.mp hp with rfl | hp2
          · simp
          · refine ih _ ?_ p (by rw [hq]; exact hp2)
            have hdl : delim.length = 3 := rfl
            simp only [List.length_drop, List.length_cons, hdl]
            omega
      · rw [pySplit_cons_neg delim_ne_nil hpr] at hp
        rcases hq : pySplit delim rest with _ | ⟨h', t'⟩
        · exact absurd hq (pySplit_ne_nil _ _)
        · rw [hq] at hp
          simp only [List.modifyHead] at hp
          cases t' with
          | nil => simp at hp
          | cons u v =>
            rw [List.dropLast_cons_of_ne_nil (by simp)] at hp
            rcases List.mem_cons.mp hp with rfl | hp2
            · -- p = c :: h' is a non-final part
              cases hcase : h' with
              | cons d q =>
                rw [getLast?_cons_ne_nil (by simp [hcase])]
                have := ih rest (by omega) h'
                  (by rw [hq, List.dropLast_cons_of_ne_nil (by simp)]
                      exact List.mem_cons_self _ _)
                rw [hcase] at this
                exact this
              | nil =>
                -- the head of `pySplit delim rest` is empty with a
                -- non-empty tail, so `rest` starts with the delimiter
                -- and `c` cannot be a dash
                subst hcase
                have hrest_pref : delim.isPrefixOf rest := by
                  cases rest with
                  | nil =>
                    rw [pySplit_nil] at hq
                    cases hq
                  | cons d rest2 =>
                    by_cases hp2 : delim.isPrefixOf (d :: rest2)
                    · exact hp2
                    · rw [pySplit_cons_neg delim_ne_nil hp2] at hq
                      rcases hq2 : pySplit delim rest2 with _ | ⟨h2, t2⟩
                      · exact absurd hq2 (pySplit_ne_nil _ _)
                      · rw [hq2] at hq
                        simp only [List.modifyHead] at hq
                        cases hq
                intro hc
                have hc2 : c = '-' := by simpa using hc
                subst hc2
                apply hpr
                rw [List.isPrefixOf_iff_prefix] at hrest_pref ⊢
                rw [delim_eq] at hrest_pref ⊢
                rcases hrest_pref with ⟨t3, ht3⟩
                rw [← ht3]
                exact ⟨'-' :: t3, rfl⟩
            · refine ih rest (by omega) p ?_
              rw [hq, List.dropLast_cons_of_ne_nil (by simp)]
              exact List.mem_cons_of_mem _ hp2

theorem pySplit_intercalate_delim :
    ∀ parts : List Str, parts ≠ [] →
      (∀ p ∈ parts, ¬ delim <:+: p) →
      (∀ p ∈ parts.dropLast, p.getLast? ≠ some '-') →
      pySplit delim (List.intercalate delim parts) = parts := by
  intro parts
  induction parts with
  | nil => intro h; exact absurd rfl h
  | cons p rest ih =>
    intro _ hclean hdash
    cases rest with
    | nil =>
      simp only [List.intercalate, List.intersperse, List.flatten_cons, List.flatten_nil,
        List.append_nil]
      exact pySplit_eq_single delim delim_ne_nil p.length p le_rfl
        (hclean p (List.mem_cons_self _ _))
    | cons q rest2 =>
      rw [intercalate_cons_of_ne_nil delim p (by simp)]
      rw [pySplit_append_delim p _
        (hclean p (List.mem_cons_self _ _))
        (fun _ => hdash p (by rw [List.dropLast_cons_of_ne_nil (by simp)]
                              exact List.mem_cons_self _ _))]
      rw [ih (by simp) (fun x hx => hclean x (List.mem_cons_of_mem _ hx))
        (fun x hx => hdash x (by rw [List.dropLast_cons_of_ne_nil (by simp)]
                                 exact List.mem_cons_of_mem _ hx))]

end NotesBot

namespace NotesBot

/-! ## Newline splitting lemmas -/

theorem splitOn_ne_nil (c : Char) (s : Str) : s.splitOn c ≠ [] :=
  List.splitOnP_ne_nil _ _

theorem splitOn_cons (c a : Char) (s : Str) :
    (a :: s).splitOn c =
      if a = c then [] :: s.splitOn c
      else List.modifyHead (a :: ·) (s.splitOn c) := by
  show List.splitOnP _ _ = _
  rw [List.splitOnP_cons]
  by_cases h : a = c
  · rw [if_pos (by simp [h]), if_pos h]
    rfl
  · rw [if_neg (by simp [h]), if_neg h]
    rfl

theorem not_mem_of_mem_splitOn (c : Char) :
    ∀ s : Str, ∀ l ∈ s.splitOn c, c ∉ l := by
  intro s
  induction s with
  | nil =>
    intro l hl
    simp only [List.splitOn_nil, List.mem_singleton] at hl
    subst hl
    simp
  | cons a s ih =>
    intro l hl
    rw [splitOn_cons] at hl
    by_cases h : a = c
    · rw [if_pos h] at hl
      rcases List.mem_cons.mp hl with rfl | hl2
      · simp
      · exact ih l hl2
    · rw [if_neg h] at hl
      rcases hq : s.splitOn c with _ | ⟨h', t'⟩
      · exact absurd hq (splitOn_ne_nil c s)
      · rw [hq] at hl
        simp only [List.modifyHead_cons] at hl
        rcases List.mem_cons.mp hl with rfl | hl2
        · intro hmem
          rcases List.mem_cons.mp hmem with rfl | hmem2
          · exact h rfl
          · exact ih h' (by rw [hq]; exact List.mem_cons_self _ _) hmem2
        · exact ih l (by rw [hq]; exact List.mem_cons_of_mem _ hl2)

theorem length_splitOn (c : Char) :
    ∀ s : Str, (s.splitOn c).length = s.count c + 1 := by
  intro s
  induction s with
  | nil => simp [List.splitOn_nil]
  | cons a s ih =>
    rw [splitOn_cons, List.count_cons]
    by_cases h : a = c
    · rw [if_pos h, if_pos (by simp [h])]
      simp [ih]
    · rw [if_neg h, if_neg (by simp [h])]
      rcases hq : s.splitOn c with _ | ⟨h', t'⟩
      · exact absurd hq (splitOn_ne_nil c s)
      · rw [hq] at ih
        simp only [List.modifyHead_cons, List.length_cons] at ih ⊢
        omega

theorem getLastD_of_ne_nil {α : Type} {l : List α} (h : l ≠ []) (d d' : α) :
    l.getLastD d = l.getLastD d' := by
  induction l generalizing d d' with
  | nil => exact absurd rfl h
  | cons a l ih =>
    cases l with
    | nil => rfl
    | cons b m =>
      rw [List.getLastD_cons]
      conv_rhs => rw [List.getLastD_cons]

end NotesBot

namespace NotesBot

/-- Splitting an appended string: if `A` splits into initial lines `IN`
plus last line `LA`, then the lines of `A ++ B` are `IN`, then `LA`
glued onto the first line of `B`, then the remaining lines of `B`. -/
theorem splitOn_append_last (c : Char) :
    ∀ (A B : Str) (IN : List Str) (LA : Str), A.splitOn c = IN ++ [LA] →
      (A ++ B).splitOn c = IN ++ List.modifyHead (LA ++ ·) (B.splitOn c) := by
  intro A
  induction A with
  | nil =>
    intro B IN LA hA
    simp only [List.splitOn_nil] at hA
    rcases IN with _ | ⟨i0, IN'⟩
    · simp only [List.nil_append] at hA ⊢
      injection hA with h1 _
      subst h1
      rcases hq : B.splitOn c with _ | ⟨hB, tB⟩
      · exact absurd hq (splitOn_ne_nil c B)
      · simp
    · exfalso
      have := congrArg List.length hA
      simp at this
  | cons a A ih =>
    intro B IN LA hA
    rw [splitOn_cons] at hA
    rw [List.cons_append, splitOn_cons]
    rcases hq : A.splitOn c with _ | ⟨hA', tA'⟩
    · exact absurd hq (splitOn_ne_nil c A)
    · by_cases h : a = c
      · rw [if_pos h] at hA ⊢
        rcases IN with _ | ⟨i0, IN'⟩
        · exfalso
          simp only [List.nil_append] at hA
          injection hA with h1 h2
          rw [hq] at h2
          cases h2
        · rw [List.cons_append] at hA
          injection hA with h1 h2
          subst h1
          rw [ih B IN' LA h2, List.cons_append]
      · rw [if_neg h] at hA ⊢
        rw [hq] at hA
        simp only [List.modifyHead_cons] at hA
        rcases IN with _ | ⟨i0, IN'⟩
        · simp only [List.nil_append] at hA ⊢
          injection hA with h1 h2
          subst h2
          have hstep := ih B [] hA' (by rw [hq]; rfl)
          rw [hstep]
          rw [List.nil_append]
          rcases hqB : B.splitOn c with _ | ⟨hB, tB⟩
          · exact absurd hqB (splitOn_ne_nil c B)
          · simp only [List.modifyHead_cons]
            rw [← h1, List.cons_append]
        · rw [List.cons_append] at hA
          injection hA with h1 h2
          have hstep := ih B (hA' :: IN') LA (by rw [hq, h2]; rfl)
          rw [hstep]
          rw [List.cons_append] at hstep ⊢
          rcases hm : List.modifyHead (fun x => LA ++ x) (B.splitOn c) with _ | ⟨m0, mt⟩
          · rcases hqB : B.splitOn c with _ | ⟨hB, tB⟩
            · exact absurd hqB (splitOn_ne_nil c B)
            · rw [hqB] at hm; cases hm
          · simp only [List.modifyHead_cons]
            rw [← h1]
            simp

end NotesBot

namespace NotesBot

/-! ## Strip, digit and join helper lemmas -/

theorem lstrip_cons_not_ws {c : Char} (r : Str) (h : isWS c = false) :
    lstrip (c :: r) = c :: r := by
  simp [lstrip, h]

theorem lstrip_append (X Y : Str) :
    lstrip (X ++ Y) = if lstrip X = [] then lstrip Y else lstrip X ++ Y := by
  induction X with
  | nil => simp [lstrip]
  | cons c X ih =>
    by_cases h : isWS c
    · simp only [List.cons_append, lstrip, if_pos h]
      exact ih
    · simp only [List.cons_append, lstrip, if_neg h]
      rw [if_neg (by simp)]
      rfl

theorem rstrip_append (A B : Str) :
    rstrip (A ++ B) = if rstrip B = [] then rstrip A else A ++ rstrip B := by
  unfold rstrip
  rw [List.reverse_append, lstrip_append]
  by_cases h : lstrip B.reverse = []
  · rw [if_pos h, if_pos (by rw [h]; rfl)]
  · rw [if_neg h, if_neg (by intro hc; exact h (by
      have := congrArg List.reverse hc
      simpa using this))]
    simp

theorem rstrip_append_last_not_ws (A : Str) {c : Char} (hc : isWS c = false) :
    rstrip (A ++ [c]) = A ++ [c] := by
  rw [rstrip_append]
  have h1 : rstrip [c] = [c] := by
    unfold rstrip
    simp [lstrip, hc]
  rw [h1]
  rw [if_neg (by simp)]

theorem strip_of_clean {c : Char} {r : Str} (hc : isWS c = false)
    (hlast : ∀ d, (c :: r).getLast? = some d → isWS d = false) :
    strip (c :: r) = c :: r := by
  unfold strip
  have h2 : rstrip (c :: r) = c :: r := by
    rcases List.eq_nil_or_concat (c :: r) with h | ⟨IN, b, hib⟩
    · cases h
    · rw [hib, List.concat_eq_append]
      apply rstrip_append_last_not_ws
      apply hlast
      rw [hib, List.concat_eq_append]
      rw [List.getLast?_append_of_ne_nil _ (by simp)]
      rfl
  rw [h2]
  exact lstrip_cons_not_ws _ hc

end NotesBot

namespace NotesBot

theorem natStr_all_digit (n : Nat) : ∀ c ∈ natStr n, c.isDigit = true := by
  induction n using Nat.strong_induction_on with
  | _ n ih =>
    rw [natStr_eq]
    by_cases h : n < 10
    · rw [if_pos h]
      intro c hc
      simp only [List.mem_singleton] at hc
      subst hc
      interval_cases n <;> decide
    · rw [if_neg h]
      intro c hc
      rcases List.mem_append.mp hc with h1 | h2
      · exact ih (n / 10) (Nat.div_lt_self (by omega) (by omega)) c h1
      · simp only [List.mem_singleton] at h2
        subst h2
        have : n % 10 < 10 := Nat.mod_lt _ (by omega)
        have hd : ∀ m, m < 10 → (Nat.digitChar m).isDigit = true := by decide
        exact hd _ this

theorem natStr_ne_nil (n : Nat) : natStr n ≠ [] := by
  rw [natStr_eq]
  by_cases h : n < 10
  · rw [if_pos h]; simp
  · rw [if_neg h]; simp

theorem intStr_of_nonneg {v : Int} (h : 0 ≤ v) : intStr v = natStr v.toNat := by
  unfold intStr
  rw [if_neg (by omega)]

theorem insertIdx_eq_take_drop {α : Type} :
    ∀ (L : List α) (n : Nat) (x : α), n ≤ L.length →
      L.insertIdx n x = L.take n ++ x :: L.drop n := by
  intro L
  induction L with
  | nil =>
    intro n x h
    have h0 : n = 0 := by simpa using h
    subst h0
    rfl
  | cons a L ih =>
    intro n x h
    cases n with
    | zero => rfl
    | succ m =>
      simp only [List.insertIdx_succ_cons, List.take_succ_cons, List.drop_succ_cons,
        List.cons_append]
      rw [ih m x (by simpa using h)]

theorem intercalate_append_singleton (sep : Str) (IN : List Str) (LA : Str) :
    List.intercalate sep (IN ++ [LA]) =
      if IN = [] then LA else List.intercalate sep IN ++ sep ++ LA := by
  induction IN with
  | nil =>
    simp [List.intercalate]
  | cons p IN ih =>
    rw [if_neg (by simp), List.cons_append,
      intercalate_cons_of_ne_nil sep p (by simp), ih]
    by_cases h : IN = []
    · subst h
      simp [List.intercalate, List.intersperse, List.append_assoc]
    · rw [if_neg h, intercalate_cons_of_ne_nil sep p h]
      simp [List.append_assoc]

theorem splitOn_head_prefix (c : Char) :
    ∀ (s h : Str) (t : List Str), s.splitOn c = h :: t → h <+: s := by
  intro s
  induction s with
  | nil =>
    intro h t hs
    simp only [List.splitOn_nil] at hs
    injection hs with h1 _
    rw [← h1]
  | cons a s ih =>
    intro h t hs
    rw [splitOn_cons] at hs
    by_cases hc : a = c
    · rw [if_pos hc] at hs
      injection hs with h1 _
      rw [← h1]
      exact List.nil_prefix
    · rw [if_neg hc] at hs
      rcases hq : s.splitOn c with _ | ⟨h', t'⟩
      · exact absurd hq (splitOn_ne_nil c s)
      · rw [hq, List.modifyHead_cons] at hs
        injection hs with h1 _
        rw [← h1]
        exact List.cons_prefix_cons.mpr ⟨rfl, ih h' t' hq⟩

theorem mem_splitOn_infix (c : Char) :
    ∀ (s : Str) (l : Str), l ∈ s.splitOn c → l <:+: s := by
  intro s
  induction s with
  | nil =>
    intro l hl
    simp only [List.splitOn_nil, List.mem_singleton] at hl
    subst hl
    exact List.nil_infix
  | cons a s ih =>
    intro l hl
    rw [splitOn_cons] at hl
    by_cases hc : a = c
    · rw [if_pos hc] at hl
      rcases List.mem_cons.mp hl with rfl | hl2
      · exact List.nil_infix
      · exact List.infix_cons (ih l hl2)
    · rw [if_neg hc] at hl
      rcases hq : s.splitOn c with _ | ⟨h', t'⟩
      · exact absurd hq (splitOn_ne_nil c s)
      · rw [hq, List.modifyHead_cons] at hl
        rcases List.mem_cons.mp hl with rfl | hl2
        · exact (List.cons_prefix_cons.mpr ⟨rfl, splitOn_head_prefix c s h' t' hq⟩).isInfix
        · exact List.infix_cons (ih l (by rw [hq]; exact List.mem_cons_of_mem _ hl2))

theorem infix_intercalate_mem {tok : Str} {c : Char}
    (htok : tok ≠ []) (hc : c ∉ tok) :
    ∀ L : List Str, tok <:+: List.intercalate [c] L → ∃ l ∈ L, tok <:+: l := by
  intro L
  induction L with
  | nil =>
    intro h
    exact absurd (List.eq_nil_of_infix_nil (by simpa [List.intercalate] using h)) htok
  | cons p rest ih =>
    intro h
    cases rest with
    | nil =>
      simp only [List.intercalate, List.intersperse, List.flatten_cons, List.flatten_nil,
        List.append_nil] at h
      exact ⟨p, List.mem_cons_self _ _, h⟩
    | cons q rest2 =>
      rw [intercalate_cons_of_ne_nil [c] p (by simp), List.append_assoc] at h
      rcases infix_append_cases h with h1 | h2 | ⟨k, hk0, hkl, _, hkp⟩
      · exact ⟨p, List.mem_cons_self _ _, h1⟩
      · have h2' : tok <:+: c :: List.intercalate [c] (q :: rest2) := h2
        rcases List.infix_cons_iff.mp h2' with h3 | h4
        · exfalso
          rcases htq : tok with _ | ⟨t0, ts⟩
          · exact htok htq
          · rw [htq] at h3 hc
            have ht0 : t0 = c := (List.cons_prefix_cons.mp h3).1
            apply hc
            rw [← ht0]
            exact List.mem_cons_self _ _
        · obtain ⟨l, hl, hinf⟩ := ih h4
          exact ⟨l, List.mem_cons_of_mem _ hl, hinf⟩
      · exfalso
        simp only [List.cons_append, List.nil_append] at hkp
        rcases hdq : tok.drop k with _ | ⟨d, ds⟩
        · have hlen : (tok.drop k).length = 0 := by rw [hdq]; rfl
          rw [List.length_drop] at hlen
          omega
        · rw [hdq] at hkp
          have hd : d = c := (List.cons_prefix_cons.mp hkp).1
          apply hc
          rw [← hd]
          have hmem : d ∈ tok.drop k := by rw [hdq]; exact List.mem_cons_self _ _
          exact List.mem_of_mem_drop hmem

end NotesBot

namespace NotesBot

theorem classifyGo_map_taskView (off off2 : Nat) :
    ∀ (lines : List Str) (i i2 tidx : Nat),
      (classifyGo off lines i tidx).map taskView =
        (classifyGo off2 lines i2 tidx).map taskView := by
  intro lines
  induction lines with
  | nil => intro i i2 tidx; rfl
  | cons l rest ih =>
    intro i i2 tidx
    simp only [classifyGo]
    by_cases h1 : mUnchecked.isPrefixOf (strip l)
    · rw [if_pos h1, if_pos h1]
      simp only [List.map_cons, taskView]
      rw [ih (i + 1) (i2 + 1) (tidx + 1)]
    · rw [if_neg h1, if_neg h1]
      by_cases h2 : mCheckedLo.isPrefixOf (strip l) || mCheckedHi.isPrefixOf (strip l)
      · rw [if_pos h2, if_pos h2]
        simp only [List.map_cons, taskView]
        rw [ih (i + 1) (i2 + 1) (tidx + 1)]
      · rw [if_neg h2, if_neg h2]
        exact ih (i + 1) (i2 + 1) tidx

/-- C4 (counterexample): the delimiters recognised by `parse_tasks` are
NOT literal lines consisting solely of `---`; they are substring
occurrences of `---` anywhere in the content. The content
`a---b---\n- [ ] hi\n---c` has no line equal to `---` at all, yet
`parse_tasks` returns a non-empty task list (harvested from the text
between the second and third inline `---` occurrences). -/
theorem parse_tasks_delim_not_literal_lines :
    (("a---b---\n- [ ] hi\n---c".toList.splitOn '\n').count delim = 0) ∧
    parse_tasks "a---b---\n- [ ] hi\n---c".toList ≠ [] := by
  constructor
  · decide
  · decide

/-- C4 (amended): with delimiters read as substring occurrences of
`---` (which is what `content.split("---")` does), the claim holds:
fewer than 3 occurrences (fewer than 4 split parts) gives the empty
task list, and otherwise the text, completion flag and index of every
parsed task are computed from the lines of the third split part (index
2, the tasks section) alone — frontmatter and body influence only the
stored line numbers. -/
theorem parse_tasks_sections (content : Str) :
    ((pySplit delim content).length < 4 → parse_tasks content = []) ∧
    (4 ≤ (pySplit delim content).length →
      (parse_tasks content).map taskView =
        (classifyGo 0 (((pySplit delim content).getD 2 []).splitOn '\n') 0 0).map taskView) := by
  constructor
  · intro h
    unfold parse_tasks
    rw [if_pos h]
  · intro h
    unfold parse_tasks
    rw [if_neg (by omega)]
    exact classifyGo_map_taskView _ 0 _ 0 0 0

theorem parse_tasks_sections_witness :
    parse_tasks "ab".toList = [] ∧
    (parse_tasks "a---b---\n- [ ] hi\n---c".toList).map taskView =
      (classifyGo 0 (((pySplit delim "a---b---\n- [ ] hi\n---c".toList).getD 2 []).splitOn '\n')
        0 0).map taskView :=
  ⟨(parse_tasks_sections "ab".toList).1 (by decide),
   (parse_tasks_sections "a---b---\n- [ ] hi\n---c".toList).2 (by decide)⟩

end NotesBot

namespace NotesBot

theorem getD_set_self {α : Type} :
    ∀ (l : List α) (n : Nat) (x d : α), n < l.length → (l.set n x).getD n d = x := by
  intro l
  induction l with
  | nil => intro n x d h; simp at h
  | cons a l ih =>
    intro n x d h
    cases n with
    | zero => rfl
    | succ m =>
      simp only [List.set_cons_succ, List.getD_cons_succ]
      exact ih m x d (by simpa using h)

theorem getD_mem {α : Type} :
    ∀ (l : List α) (n : Nat) (d : α), n < l.length → l.getD n d ∈ l := by
  intro l
  induction l with
  | nil => intro n d h; simp at h
  | cons a l ih =>
    intro n d h
    cases n with
    | zero => exact List.mem_cons_self _ _
    | succ m => exact List.mem_cons_of_mem _ (ih m d (by simpa using h))

theorem getD_mem_dropLast {α : Type} :
    ∀ (l : List α) (n : Nat) (d : α), n + 1 < l.length → l.getD n d ∈ l.dropLast := by
  intro l
  induction l with
  | nil => intro n d h; simp at h
  | cons a l ih =>
    intro n d h
    have hl : l ≠ [] := by
      intro hc
      rw [hc] at h
      simp at h
    rw [List.dropLast_cons_of_ne_nil hl]
    cases n with
    | zero => exact List.mem_cons_self _ _
    | succ m => exact List.mem_cons_of_mem _ (ih m d (by simpa using h))

theorem dropLast_set_of_lt {α : Type} :
    ∀ (l : List α) (n : Nat) (x : α), n + 1 < l.length →
      (l.set n x).dropLast = l.dropLast.set n x := by
  intro l
  induction l with
  | nil => intro n x h; simp at h
  | cons a l ih =>
    intro n x h
    simp only [List.length_cons] at h
    have hl : l ≠ [] := by
      intro hc
      rw [hc] at h
      simp at h
    cases n with
    | zero =>
      simp only [List.set_cons_zero]
      rw [List.dropLast_cons_of_ne_nil hl, List.dropLast_cons_of_ne_nil hl,
        List.set_cons_zero]
    | succ m =>
      have hset : l.set m x ≠ [] := by
        intro hc
        have := congrArg List.length hc
        simp only [List.length_set, List.length_nil] at this
        omega
      simp only [List.set_cons_succ]
      rw [List.dropLast_cons_of_ne_nil hset, List.dropLast_cons_of_ne_nil hl,
        List.set_cons_succ, ih m x (by omega)]

theorem find?_append_none {α : Type} (p : α → Bool) :
    ∀ (l₁ l₂ : List α), l₁.find? p = none → (l₁ ++ l₂).find? p = l₂.find? p := by
  intro l₁
  induction l₁ with
  | nil => intro l₂ _; rfl
  | cons a l ih =>
    intro l₂ h
    by_cases hp : p a
    · rw [List.find?_cons_of_pos _ hp] at h
      exact absurd h (by simp)
    · rw [List.find?_cons_of_neg _ hp] at h
      rw [List.cons_append, List.find?_cons_of_neg _ hp]
      exact ih l₂ h

theorem find?_map_congr {α : Type} (p : α → Bool) (f : α → α) :
    ∀ l : List α, (∀ a ∈ l, p (f a) = p a) →
      (l.map f).find? p = (l.find? p).map f := by
  intro l
  induction l with
  | nil => intro _; rfl
  | cons a l ih =>
    intro h
    simp only [List.map_cons]
    by_cases hp : p a
    · rw [List.find?_cons_of_pos _ (by rw [h a (List.mem_cons_self _ _)]; exact hp),
        List.find?_cons_of_pos _ hp]
      rfl
    · rw [List.find?_cons_of_neg _ (by rw [h a (List.mem_cons_self _ _)]; exact hp),
        List.find?_cons_of_neg _ hp]
      exact ih (fun b hb => h b (List.mem_cons_of_mem _ hb))

theorem splitOn_last_decomp (c : Char) :
    ∀ s : Str, ∃ IN LA, s.splitOn c = IN ++ [LA] ∧
      ((IN = [] ∧ LA = s) ∨ (IN ≠ [] ∧ c :: LA <:+ s)) := by
  intro s
  induction s with
  | nil => exact ⟨[], [], by simp [List.splitOn_nil], Or.inl ⟨rfl, rfl⟩⟩
  | cons a s ih =>
    obtain ⟨IN, LA, hs, hcase⟩ := ih
    rw [splitOn_cons]
    by_cases hac : a = c
    · subst hac
      rw [if_pos rfl, hs]
      refine ⟨[] :: IN, LA, by simp, Or.inr ⟨by simp, ?_⟩⟩
      rcases hcase with ⟨_, rfl⟩ | ⟨_, hsuf⟩
      · exact List.suffix_refl _
      · exact hsuf.trans (List.suffix_cons a s)
    · rw [if_neg hac, hs]
      rcases hcase with ⟨hIN, hLA⟩ | ⟨hIN, hsuf⟩
      · subst hIN
        subst hLA
        exact ⟨[], a :: LA, by simp, Or.inl ⟨rfl, rfl⟩⟩
      · rcases hIN2 : IN with _ | ⟨h0, t0⟩
        · exact absurd hIN2 hIN
        · subst hIN2
          refine ⟨(a :: h0) :: t0, LA, by simp, Or.inr ⟨by simp, ?_⟩⟩
          exact hsuf.trans (List.suffix_cons a s)

theorem joinNl_getLast_not_dash (IN : List Str) (LA : Str)
    (h : LA.getLast? ≠ some '-') :
    (joinNl (IN ++ [LA])).getLast? ≠ some '-' := by
  unfold joinNl
  rw [intercalate_append_singleton]
  by_cases hIN : IN = []
  · rw [if_pos hIN]
    exact h
  · rw [if_neg hIN]
    by_cases hLA : LA = []
    · subst hLA
      rw [List.append_nil, List.getLast?_append_of_ne_nil _ (by simp)]
      decide
    · rw [List.append_assoc, List.getLast?_append_of_ne_nil _ (by simp),
        List.getLast?_append_of_ne_nil _ hLA]
      exact h

end NotesBot

namespace NotesBot

theorem not_delim_infix_of_no_dash {l : Str} (h : '-' ∉ l) : ¬ delim <:+: l := by
  intro hinf
  exact h (hinf.subset (by decide))

theorem joinNl_no_delim {U : List Str} (h : ∀ l ∈ U, ¬ delim <:+: l) :
    ¬ delim <:+: joinNl U := by
  intro hinf
  obtain ⟨l, hl, hinf2⟩ :=
    @infix_intercalate_mem delim '\n' (by decide) (by decide) U hinf
  exact h l hl hinf2

theorem ratingLine_get (v : Int) (h0 : 0 ≤ v) (h10 : v ≤ 10) :
    ratingKey.isPrefixOf (strip (ratingLineOf v)) = true ∧
    (match breakAt ':' (ratingLineOf v) with
      | none => (none : Option Int)
      | some p => pyInt (strip p.2)) = some v ∧
    '\n' ∉ ratingLineOf v ∧ '-' ∉ ratingLineOf v ∧
    (ratingLineOf v).getLast? ≠ some '-' := by
  interval_cases v <;> exact ⟨by decide, by decide, by decide, by decide, by decide⟩

theorem mem_updatedRatingLines (lines : List Str) (v : Int) :
    ∀ l ∈ updatedRatingLines lines v, l = ratingLineOf v ∨ l ∈ lines := by
  intro l hl
  unfold updatedRatingLines at hl
  have hmap : ∀ x ∈ lines.map
      (fun l => if ratingKey.isPrefixOf (strip l) then ratingLineOf v else l),
      x = ratingLineOf v ∨ x ∈ lines := by
    intro x hx
    obtain ⟨a, ha, hfa⟩ := List.mem_map.mp hx
    by_cases hp : ratingKey.isPrefixOf (strip a)
    · rw [if_pos hp] at hfa
      exact Or.inl hfa.symm
    · rw [if_neg hp] at hfa
      exact Or.inr (hfa ▸ ha)
  by_cases hfound : lines.any (fun l => ratingKey.isPrefixOf (strip l)) = true
  · rw [if_pos hfound] at hl
    exact hmap l hl
  · rw [if_neg hfound] at hl
    set updated := lines.map
      (fun l => if ratingKey.isPrefixOf (strip l) then ratingLineOf v else l) with hupd
    by_cases hblank : updated ≠ [] ∧ updated.getLast? = some []
    · rw [if_pos hblank] at hl
      rw [insertIdx_eq_take_drop updated (updated.length - 1) (ratingLineOf v)
        (by omega)] at hl
      rcases List.mem_append.mp hl with h1 | h2
      · exact hmap l (List.take_subset _ _ h1)
      · rcases List.mem_cons.mp h2 with rfl | h3
        · exact Or.inl rfl
        · exact hmap l (List.drop_subset _ _ h3)
    · rw [if_neg hblank] at hl
      rcases List.mem_append.mp hl with h1 | h2
      · exact hmap l h1
      · exact Or.inl (List.mem_singleton.mp h2)

theorem updatedRatingLines_ne_nil (lines : List Str) (v : Int)
    (h : lines ≠ []) : updatedRatingLines lines v ≠ [] := by
  unfold updatedRatingLines
  set updated := lines.map
    (fun l => if ratingKey.isPrefixOf (strip l) then ratingLineOf v else l) with hupd
  have hu : updated ≠ [] := by
    intro hc
    exact h (List.map_eq_nil.mp hc)
  by_cases hfound : lines.any (fun l => ratingKey.isPrefixOf (strip l)) = true
  · rw [if_pos hfound]
    exact hu
  · rw [if_neg hfound]
    by_cases hblank : updated ≠ [] ∧ updated.getLast? = some []
    · rw [if_pos hblank]
      intro hc
      have := congrArg List.length hc
      rw [List.length_insertIdx _ _ (by omega)] at this
      simp at this
    · rw [if_neg hblank]
      simp

theorem update_rating_eq (content : Str) (v : Int)
    (h3 : 3 ≤ (pySplit delim content).length) :
    update_rating content v =
      some (List.intercalate delim ((pySplit delim content).set 1
        (joinNl (updatedRatingLines
          (((pySplit delim content).getD 1 []).splitOn '\n') v)))) := by
  unfold update_rating updatedRatingLines
  rw [if_neg (by omega)]

theorem get_rating_eq (content : Str)
    (h3 : 3 ≤ (pySplit delim content).length) :
    get_rating content =
      match (((pySplit delim content).getD 1 []).splitOn '\n').find?
          (fun l => ratingKey.isPrefixOf (strip l)) with
      | none => none
      | some line =>
        match breakAt ':' line with
        | none => none
        | some p => pyInt (strip p.2) := by
  unfold get_rating
  rw [if_neg (by omega)]

end NotesBot

namespace NotesBot

/-- **C5.** For every note content whose frontmatter section exists
(at least 2 `---` occurrences, i.e. at least 3 split parts) and every
integer `v` in `[0,10]`, setting the rating and reading it back
returns `v` — covering both the replace-in-place case (a `Оценка:`
line already present) and the append case (absent field, inserted
before a trailing blank line when one exists, else appended at the
end of the frontmatter). -/
theorem set_then_get_rating (content : Str) (v : Int)
    (h3 : 3 ≤ (pySplit delim content).length) (h0 : 0 ≤ v) (h10 : v ≤ 10) :
    ∃ c2, update_rating content v = some c2 ∧ get_rating c2 = some v := by
  obtain ⟨hkey, hget, hnl, hnd, hrlast⟩ := ratingLine_get v h0 h10
  refine ⟨_, update_rating_eq content v h3, ?_⟩
  set parts := pySplit delim content with hpartsdef
  set fm := parts.getD 1 [] with hfmdef
  set lines := fm.splitOn '\n' with hlinesdef
  set U := updatedRatingLines lines v with hUdef
  set newFm := joinNl U with hnewFmdef
  have hfm_mem : fm ∈ parts := getD_mem parts 1 [] (by omega)
  have hfm_nodelim : ¬ delim <:+: fm :=
    not_infix_of_mem_pySplit delim delim_ne_nil content.length content le_rfl fm hfm_mem
  have hfm_last : fm.getLast? ≠ some '-' :=
    pySplit_parts_not_enddash content.length content le_rfl fm
      (getD_mem_dropLast parts 1 [] (by omega))
  have hln_nodelim : ∀ l ∈ lines, ¬ delim <:+: l := by
    intro l hl hinf
    exact hfm_nodelim (hinf.trans ( mem_splitOn_infix '\n' fm l hl))
  have hln_nonl : ∀ l ∈ lines, '\n' ∉ l := not_mem_of_mem_splitOn '\n' fm
  have hU_mem : ∀ l ∈ U, l = ratingLineOf v ∨ l ∈ lines := mem_updatedRatingLines lines v
  have hU_nonl : ∀ l ∈ U, '\n' ∉ l := by
    intro l hl
    rcases hU_mem l hl with rfl | h2
    · exact hnl
    · exact hln_nonl l h2
  have hU_ne : U ≠ [] := updatedRatingLines_ne_nil lines v (splitOn_ne_nil '\n' fm)
  have hU_nodelim : ∀ l ∈ U, ¬ delim <:+: l := by
    intro l hl
    rcases hU_mem l hl with rfl | h2
    · exact not_delim_infix_of_no_dash hnd
    · exact hln_nodelim l h2
  have hnewFm_nodelim : ¬ delim <:+: newFm := joinNl_no_delim hU_nodelim
  obtain ⟨IN, LA, hdec, hcase⟩ := splitOn_last_decomp '\n' fm
  rw [← hlinesdef] at hdec
  have hLA_last : LA.getLast? ≠ some '-' := by
    rcases hcase with ⟨_, rfl⟩ | ⟨_, hsuf⟩
    · exact hfm_last
    · by_cases hLAe : LA = []
      · subst hLAe
        simp
      · obtain ⟨pre, hpre⟩ := hsuf
        intro hc
        apply hfm_last
        rw [← hpre, List.getLast?_append_of_ne_nil _ (by simp),
          getLast?_cons_ne_nil hLAe]
        exact hc
  have hpredf : ∀ a ∈ lines,
      ratingKey.isPrefixOf (strip
        (if ratingKey.isPrefixOf (strip a) then ratingLineOf v else a)) =
      ratingKey.isPrefixOf (strip a) := by
    intro a _
    by_cases hp : ratingKey.isPrefixOf (strip a)
    · rw [if_pos hp, hkey, hp]
    · rw [if_neg hp]
  have hmain : (∃ IN2 LA2, updatedRatingLines lines v = IN2 ++ [LA2] ∧
        LA2.getLast? ≠ some '-') ∧
      (updatedRatingLines lines v).find?
        (fun l => ratingKey.isPrefixOf (strip l)) = some (ratingLineOf v) := by
    unfold updatedRatingLines
    by_cases hfound : lines.any (fun l => ratingKey.isPrefixOf (strip l)) = true
    · rw [if_pos hfound]
      constructor
      · refine ⟨IN.map (fun l => if ratingKey.isPrefixOf (strip l) then ratingLineOf v else l),
          (if ratingKey.isPrefixOf (strip LA) then ratingLineOf v else LA), ?_, ?_⟩
        · rw [hdec, List.map_append]
          rfl
        · by_cases hp : ratingKey.isPrefixOf (strip LA)
          · rw [if_pos hp]
            exact hrlast
          · rw [if_neg hp]
            exact hLA_last
      · rw [find?_map_congr _ _ lines hpredf]
        have hex : ∃ x ∈ lines, ratingKey.isPrefixOf (strip x) = true :=
          List.any_eq_true.mp hfound
        obtain ⟨l0, hl0⟩ := Option.isSome_iff_exists.mp (List.find?_isSome.mpr hex)
        have hp0 : ratingKey.isPrefixOf (strip l0) = true := by
          have hb := List.find?_some hl0
          simpa using hb
        rw [hl0]
        simp only [Option.map_some']
        rw [if_pos hp0]
    · rw [if_neg hfound]
      have hall : ∀ l ∈ lines, ¬ ratingKey.isPrefixOf (strip l) = true :=
        fun l hl hp => hfound (List.any_eq_true.mpr ⟨l, hl, hp⟩)
      have hupd_id : lines.map
          (fun l => if ratingKey.isPrefixOf (strip l) then ratingLineOf v else l) = lines := by
        have hcg : ∀ a ∈ lines,
            (if ratingKey.isPrefixOf (strip a) then ratingLineOf v else a) = id a := by
          intro a ha
          rw [if_neg (hall a ha)]
          rfl
        rw [List.map_congr_left hcg, List.map_id]
      rw [hupd_id]
      have hfind_lines : lines.find? (fun l => ratingKey.isPrefixOf (strip l)) = none :=
        List.find?_eq_none.mpr hall
      by_cases hblank : lines ≠ [] ∧ lines.getLast? = some []
      · rw [if_pos hblank]
        have hLAnil : LA = [] := by
          have hb := hblank.2
          rw [hdec, List.getLast?_append_of_ne_nil _ (by simp)] at hb
          simpa using hb
        have hlen : lines.length - 1 = IN.length := by
          rw [hdec]
          simp
        rw [insertIdx_eq_take_drop lines (lines.length - 1) (ratingLineOf v) (by omega),
          hlen, hdec, List.take_left, List.drop_left]
        constructor
        · refine ⟨IN ++ [ratingLineOf v], LA, by simp, ?_⟩
          rw [hLAnil]
          simp
        · have hfindIN : IN.find? (fun l => ratingKey.isPrefixOf (strip l)) = none := by
            apply List.find?_eq_none.mpr
            intro x hx
            exact hall x (by rw [hdec]; exact List.mem_append_left _ hx)
          rw [find?_append_none _ IN _ hfindIN,
            @List.find?_cons_of_pos Str (fun l => ratingKey.isPrefixOf (strip l))
              (ratingLineOf v) [LA] hkey]
      · rw [if_neg hblank]
        constructor
        · exact ⟨lines, ratingLineOf v, rfl, hrlast⟩
        · rw [find?_append_none _ lines _ hfind_lines,
            @List.find?_cons_of_pos Str (fun l => ratingKey.isPrefixOf (strip l))
              (ratingLineOf v) [] hkey]
  rw [← hUdef] at hmain
  obtain ⟨⟨IN2, LA2, hU2, hLA2⟩, hfind⟩ := hmain
  have hnewFm_last : newFm.getLast? ≠ some '-' := by
    rw [hnewFmdef, hU2]
    exact joinNl_getLast_not_dash IN2 LA2 hLA2
  have hresplit : pySplit delim (List.intercalate delim (parts.set 1 newFm)) =
      parts.set 1 newFm := by
    apply pySplit_intercalate_delim
    · intro hc
      have hlc := congrArg List.length hc
      rw [List.length_set, List.length_nil] at hlc
      omega
    · intro p hp
      rcases List.mem_or_eq_of_mem_set hp with h1 | rfl
      · exact not_infix_of_mem_pySplit delim delim_ne_nil content.length content le_rfl p h1
      · exact hnewFm_nodelim
    · intro p hp
      rw [dropLast_set_of_lt parts 1 newFm (by omega)] at hp
      rcases List.mem_or_eq_of_mem_set hp with h1 | rfl
      · exact pySplit_parts_not_enddash content.length content le_rfl p h1
      · exact hnewFm_last
  have h3' : 3 ≤ (pySplit delim (List.intercalate delim (parts.set 1 newFm))).length := by
    rw [hresplit, List.length_set]
    omega
  rw [get_rating_eq _ h3', hresplit, getD_set_self parts 1 newFm [] (by omega)]
  have hsplit_new : newFm.splitOn '\n' = U := by
    rw [hnewFmdef]
    exact List.splitOn_intercalate U '\n' hU_nonl hU_ne
  rw [hsplit_new, hfind]
  exact hget

theorem set_then_get_rating_witness :
    (∃ c2, update_rating "---\nttl\n---\nbody".toList 9 = some c2 ∧
      get_rating c2 = some 9) ∧
    (∃ c2, update_rating "---\nОценка: 2\n---\nbody".toList 0 = some c2 ∧
      get_rating c2 = some 0) :=
  ⟨set_then_get_rating "---\nttl\n---\nbody".toList 9 (by decide) (by decide) (by decide),
   set_then_get_rating "---\nОценка: 2\n---\nbody".toList 0 (by decide) (by decide) (by decide)⟩

end NotesBot

namespace NotesBot

theorem getD_append_left {α : Type} :
    ∀ (l₁ l₂ : List α) (j : Nat) (d : α), j < l₁.length →
      (l₁ ++ l₂).getD j d = l₁.getD j d := by
  intro l₁
  induction l₁ with
  | nil => intro l₂ j d h; simp at h
  | cons a l ih =>
    intro l₂ j d h
    cases j with
    | zero => rfl
    | succ m =>
      simp only [List.cons_append, List.getD_cons_succ]
      exact ih l₂ m d (by simpa using h)

theorem getD_append_right {α : Type} :
    ∀ (l₁ l₂ : List α) (j : Nat) (d : α), l₁.length ≤ j →
      (l₁ ++ l₂).getD j d = l₂.getD (j - l₁.length) d := by
  intro l₁
  induction l₁ with
  | nil => intro l₂ j d _; simp
  | cons a l ih =>
    intro l₂ j d h
    simp only [List.length_cons] at h
    cases j with
    | zero => omega
    | succ m =>
      simp only [List.cons_append, List.getD_cons_succ, List.length_cons]
      rw [ih l₂ m d (by omega)]
      congr 1
      omega

theorem lstrip_suffix : ∀ s : Str, lstrip s <:+ s := by
  intro s
  induction s with
  | nil => exact List.suffix_refl _
  | cons c r ih =>
    by_cases h : isWS c
    · simp only [lstrip, if_pos h]
      exact ih.trans (List.suffix_cons c r)
    · simp only [lstrip, if_neg h]
      exact List.suffix_refl _

theorem rstrip_prefix (s : Str) : rstrip s <+: s := by
  unfold rstrip
  have h := lstrip_suffix s.reverse
  have h2 := List.reverse_prefix.mpr h
  rwa [List.reverse_reverse] at h2

theorem strip_infix (s : Str) : strip s <:+: s :=
  (lstrip_suffix (rstrip s)).isInfix.trans ( rstrip_prefix s).isInfix

theorem classifyGo_indices (off : Nat) :
    ∀ (lines : List Str) (i tidx : Nat),
      (classifyGo off lines i tidx).map Task.index =
        List.range' tidx (classifyGo off lines i tidx).length := by
  intro lines
  induction lines with
  | nil => intro i tidx; rfl
  | cons l rest ih =>
    intro i tidx
    simp only [classifyGo]
    by_cases h1 : mUnchecked.isPrefixOf (strip l)
    · rw [if_pos h1]
      simp only [List.map_cons, List.length_cons, List.range'_succ]
      rw [ih (i + 1) (tidx + 1)]
    · rw [if_neg h1]
      by_cases h2 : mCheckedLo.isPrefixOf (strip l) || mCheckedHi.isPrefixOf (strip l)
      · rw [if_pos h2]
        simp only [List.map_cons, List.length_cons, List.range'_succ]
        rw [ih (i + 1) (tidx + 1)]
      · rw [if_neg h2]
        exact ih (i + 1) tidx

theorem classifyGo_sound (off : Nat) :
    ∀ (lines : List Str) (i tidx : Nat), ∀ t ∈ classifyGo off lines i tidx,
      ∃ j, j < lines.length ∧ t.line_number = off + i + j ∧
        (t.completed = false → mUnchecked.isPrefixOf (strip (lines.getD j [])) = true) ∧
        (t.completed = true →
          (mCheckedLo.isPrefixOf (strip (lines.getD j []))
            || mCheckedHi.isPrefixOf (strip (lines.getD j []))) = true) := by
  intro lines
  induction lines with
  | nil =>
    intro i tidx t ht
    simp [classifyGo] at ht
  | cons l rest ih =>
    intro i tidx t ht
    simp only [classifyGo] at ht
    by_cases h1 : mUnchecked.isPrefixOf (strip l)
    · rw [if_pos h1] at ht
      rcases List.mem_cons.mp ht with rfl | ht2
      · refine ⟨0, by simp, ?_, fun _ => h1, fun hc => by simp at hc⟩
        show off + i = off + i + 0
        omega
      · obtain ⟨j, hj, hln, hf, hr⟩ := ih (i + 1) (tidx + 1) t ht2
        refine ⟨j + 1, by simp; omega, by omega, ?_, ?_⟩
        · simpa only [List.getD_cons_succ] using hf
        · simpa only [List.getD_cons_succ] using hr
    · rw [if_neg h1] at ht
      by_cases h2 : mCheckedLo.isPrefixOf (strip l) || mCheckedHi.isPrefixOf (strip l)
      · rw [if_pos h2] at ht
        rcases List.mem_cons.mp ht with rfl | ht2
        · refine ⟨0, by simp, ?_, fun hc => by simp at hc, fun _ => h2⟩
          show off + i = off + i + 0
          omega
        · obtain ⟨j, hj, hln, hf, hr⟩ := ih (i + 1) (tidx + 1) t ht2
          refine ⟨j + 1, by simp; omega, by omega, ?_, ?_⟩
          · simpa only [List.getD_cons_succ] using hf
          · simpa only [List.getD_cons_succ] using hr
      · rw [if_neg h2] at ht
        obtain ⟨j, hj, hln, hf, hr⟩ := ih (i + 1) tidx t ht
        refine ⟨j + 1, by simp; omega, by omega, ?_, ?_⟩
        · simpa only [List.getD_cons_succ] using hf
        · simpa only [List.getD_cons_succ] using hr

end NotesBot

namespace NotesBot

theorem splitOn_getD_append_left (c : Char) (S T : Str) (j : Nat)
    (hj : j < (S.splitOn c).length) :
    (S.splitOn c).getD j [] <+: ((S ++ T).splitOn c).getD j [] := by
  obtain ⟨IN, LA, hdec, _⟩ := splitOn_last_decomp c S
  have hlen : (S.splitOn c).length = IN.length + 1 := by
    rw [hdec]
    simp
  rw [splitOn_append_last c S T IN LA hdec, hdec]
  by_cases hjIN : j < IN.length
  · rw [getD_append_left _ _ _ _ hjIN, getD_append_left _ _ _ _ hjIN]
  · have hj2 : j = IN.length := by omega
    subst hj2
    rw [getD_append_right _ _ _ _ (le_refl _), getD_append_right _ _ _ _ (le_refl _),
      Nat.sub_self]
    rcases hq : T.splitOn c with _ | ⟨TH, TT⟩
    · exact absurd hq (splitOn_ne_nil c T)
    · rw [List.modifyHead_cons]
      simp only [List.getD_cons_zero]
      exact List.prefix_append LA TH

theorem splitOn_getD_append_right (c : Char) (P S : Str) (j : Nat)
    (hj : j < (S.splitOn c).length) :
    (S.splitOn c).getD j [] <:+ ((P ++ S).splitOn c).getD (P.count c + j) [] ∧
    P.count c + j < ((P ++ S).splitOn c).length := by
  obtain ⟨IN, LA, hdec, _⟩ := splitOn_last_decomp c P
  have hINlen : IN.length = P.count c := by
    have hls := length_splitOn c P
    rw [hdec] at hls
    simp only [List.length_append, List.length_cons, List.length_nil] at hls
    omega
  rw [splitOn_append_last c P S IN LA hdec]
  constructor
  · rw [← hINlen, getD_append_right IN _ (IN.length + j) [] (by omega)]
    have hsub : IN.length + j - IN.length = j := by omega
    rw [hsub]
    rcases hq : S.splitOn c with _ | ⟨SH, ST⟩
    · exact absurd hq (splitOn_ne_nil c S)
    · rw [List.modifyHead_cons]
      cases j with
      | zero =>
        simp only [List.getD_cons_zero]
        exact List.suffix_append LA SH
      | succ m =>
        simp only [List.getD_cons_succ]
        exact List.suffix_refl _
  · rw [List.length_append, List.length_modifyHead]
    omega

theorem splitOn_getD_mid (c : Char) (P S T : Str) (j : Nat)
    (hj : j < (S.splitOn c).length) :
    (S.splitOn c).getD j [] <:+: ((P ++ S ++ T).splitOn c).getD (P.count c + j) [] ∧
    P.count c + j < ((P ++ S ++ T).splitOn c).length := by
  have h1 : (S.splitOn c).getD j [] <+: ((S ++ T).splitOn c).getD j [] :=
    splitOn_getD_append_left c S T j hj
  have hj2 : j < ((S ++ T).splitOn c).length := by
    rw [length_splitOn, List.count_append]
    rw [length_splitOn] at hj
    omega
  obtain ⟨h2, h3⟩ := splitOn_getD_append_right c P (S ++ T) j hj2
  rw [List.append_assoc]
  exact ⟨h1.isInfix.trans h2.isInfix, h3⟩

end NotesBot

namespace NotesBot

theorem parse_tasks_decomp (content : Str)
    (h4 : 4 ≤ (pySplit delim content).length) :
    ∃ T, content =
        ((pySplit delim content).getD 0 [] ++ delim ++
          (pySplit delim content).getD 1 [] ++ delim) ++
        ((pySplit delim content).getD 2 []) ++ T ∧
      content.take
        ((findSubFrom delim content ((findSub delim content).getD 0 + 3)).getD 0 + 3) =
        (pySplit delim content).getD 0 [] ++ delim ++
          (pySplit delim content).getD 1 [] ++ delim := by
  obtain ⟨p0, p1, p2, t2, hq, ht2⟩ :
      ∃ p0 p1 p2 t2, pySplit delim content = p0 :: p1 :: p2 :: t2 ∧ t2 ≠ [] := by
    rcases hps : pySplit delim content with _ | ⟨p0, t0⟩
    · exact absurd hps (pySplit_ne_nil delim content)
    rcases t0 with _ | ⟨p1, t1⟩
    · rw [hps] at h4
      simp at h4
    rcases t1 with _ | ⟨p2, t2⟩
    · rw [hps] at h4
      simp at h4
    refine ⟨p0, p1, p2, t2, rfl, ?_⟩
    intro hc
    rw [hps, hc] at h4
    simp at h4
  have hcnt : content = List.intercalate delim (pySplit delim content) :=
    (intercalate_pySplit delim delim_ne_nil content.length content le_rfl).symm
  rw [hq, intercalate_cons_of_ne_nil delim p0 (by simp),
    intercalate_cons_of_ne_nil delim p1 (by simp),
    intercalate_cons_of_ne_nil delim p2 ht2] at hcnt
  have hclean : ∀ p ∈ pySplit delim content, ¬ delim <:+: p :=
    not_infix_of_mem_pySplit delim delim_ne_nil content.length content le_rfl
  have hdash := pySplit_parts_not_enddash content.length content le_rfl
  have hmem0 : p0 ∈ pySplit delim content := by
    rw [hq]
    exact List.mem_cons_self _ _
  have hmem1 : p1 ∈ pySplit delim content := by
    rw [hq]
    exact List.mem_cons_of_mem _ (List.mem_cons_self _ _)
  have hd0 : p0 ∈ (pySplit delim content).dropLast := by
    rw [hq, List.dropLast_cons_of_ne_nil (by simp)]
    exact List.mem_cons_self _ _
  have hd1 : p1 ∈ (pySplit delim content).dropLast := by
    rw [hq, List.dropLast_cons_of_ne_nil (by simp),
      List.dropLast_cons_of_ne_nil (by simp)]
    exact List.mem_cons_of_mem _ (List.mem_cons_self _ _)
  have hfind1 : findSub delim content = some p0.length := by
    rw [hcnt]
    exact findSub_append_delim p0 _ (hclean p0 hmem0) (fun _ => hdash p0 hd0)
  have hlen0 : (p0 ++ delim).length = p0.length + 3 := by
    rw [List.length_append]
    rfl
  have hdrop : content.drop (p0.length + 3) =
      p1 ++ delim ++ (p2 ++ delim ++ List.intercalate delim t2) := by
    rw [hcnt, ← hlen0]
    have hassoc : p0 ++ delim ++ (p1 ++ delim ++ (p2 ++ delim ++ List.intercalate delim t2)) =
        (p0 ++ delim) ++ (p1 ++ delim ++ (p2 ++ delim ++ List.intercalate delim t2)) := by
      simp [List.append_assoc]
    rw [hassoc, List.drop_left]
  have hfind2 : findSubFrom delim content (p0.length + 3) =
      some (p1.length + (p0.length + 3)) := by
    unfold findSubFrom
    rw [hdrop,
      findSub_append_delim p1 _ (hclean p1 hmem1) (fun _ => hdash p1 hd1)]
    rfl
  have hPdecomp : content =
      (p0 ++ delim ++ p1 ++ delim) ++ (p2 ++ (delim ++ List.intercalate delim t2)) := by
    rw [hcnt]
    simp [List.append_assoc]
  refine ⟨delim ++ List.intercalate delim t2, ?_, ?_⟩
  · rw [hq]
    simp only [List.getD_cons_succ, List.getD_cons_zero]
    rw [hPdecomp]
    simp [List.append_assoc]
  · rw [hq]
    simp only [List.getD_cons_succ, List.getD_cons_zero]
    rw [hfind1]
    simp only [Option.getD_some]
    rw [hfind2]
    simp only [Option.getD_some]
    have hlenP : (p0 ++ delim ++ p1 ++ delim).length = p1.length + (p0.length + 3) + 3 := by
      simp only [List.length_append]
      have hdl : delim.length = 3 := rfl
      omega
    rw [← hlenP, hPdecomp, List.take_left]

end NotesBot

namespace NotesBot

/-- **C2.** Whenever `parse_tasks` returns tasks, (1) their `index`
fields are exactly `0..count-1` in file order, and (2) each stored
1-based `line_number`, applied to the whole content split on newlines,
is in range and selects the physical line holding that task's checklist
marker, so that `toggle_task` on that task succeeds and rewrites
exactly the line at `line_number - 1`, leaving every other line
untouched. -/
theorem parse_tasks_dense_and_toggle_aligned (content today : Str) (k : Nat)
    (hk : k < (parse_tasks content).length) :
    (parse_tasks content).map Task.index = List.range (parse_tasks content).length ∧
    1 ≤ ((parse_tasks content).getD k ⟨[], false, 0, 0⟩).line_number ∧
    ((parse_tasks content).getD k ⟨[], false, 0, 0⟩).line_number - 1 <
      (content.splitOn '\n').length ∧
    ∃ L', toggle_task today content (k : Int) =
      some (joinNl ((content.splitOn '\n').set
        (((parse_tasks content).getD k ⟨[], false, 0, 0⟩).line_number - 1) L')) := by
  have h4 : 4 ≤ (pySplit delim content).length := by
    by_contra hlt
    have hnil : parse_tasks content = [] := by
      unfold parse_tasks
      rw [if_pos (by omega)]
    rw [hnil] at hk
    simp at hk
  obtain ⟨T, hPT, htake⟩ := parse_tasks_decomp content h4
  set P := (pySplit delim content).getD 0 [] ++ delim ++
    (pySplit delim content).getD 1 [] ++ delim with hPdef
  have hpt : parse_tasks content =
      classifyGo (P.count '\n' + 1) (((pySplit delim content).getD 2 []).splitOn '\n') 0 0 := by
    unfold parse_tasks
    rw [if_neg (by omega)]
    show classifyGo ((content.take
        ((findSubFrom delim content ((findSub delim content).getD 0 + 3)).getD 0 + 3)).count '\n' + 1)
      (((pySplit delim content).getD 2 []).splitOn '\n') 0 0 = _
    rw [htake]
  have hdense : (parse_tasks content).map Task.index =
      List.range (parse_tasks content).length := by
    rw [hpt, List.range_eq_range']
    exact classifyGo_indices _ _ 0 0
  set t := (parse_tasks content).getD k ⟨[], false, 0, 0⟩ with ht
  have htmem : t ∈ parse_tasks content := getD_mem _ k _ hk
  obtain ⟨j, hj, hln, hf, hr⟩ :=
    classifyGo_sound (P.count '\n' + 1) (((pySplit delim content).getD 2 []).splitOn '\n') 0 0 t
      (by rw [← hpt]; exact htmem)
  obtain ⟨hinf, hbound⟩ :=
    splitOn_getD_mid '\n' P ((pySplit delim content).getD 2 []) T j hj
  rw [← hPT] at hinf hbound
  have hone : 1 ≤ t.line_number := by omega
  have hidx : t.line_number - 1 = P.count '\n' + j := by omega
  have hbound2 : t.line_number - 1 < (content.splitOn '\n').length := by omega
  refine ⟨hdense, hone, hbound2, ?_⟩
  have hmark_unch : t.completed = false →
      containsSub mUnchecked ((content.splitOn '\n').getD (P.count '\n' + j) []) = true := by
    intro hcomp
    exact ( containsSub_iff_infix _ _).mpr
      (((List.isPrefixOf_iff_prefix.mp (hf hcomp)).isInfix.trans ( strip_infix _)).trans hinf)
  have hmark_lo : mCheckedLo.isPrefixOf
        (strip ((((pySplit delim content).getD 2 []).splitOn '\n').getD j [])) = true →
      containsSub mCheckedLo ((content.splitOn '\n').getD (P.count '\n' + j) []) = true :=
    fun hlo => ( containsSub_iff_infix _ _).mpr
      (((List.isPrefixOf_iff_prefix.mp hlo).isInfix.trans ( strip_infix _)).trans hinf)
  have hmark_hi : mCheckedHi.isPrefixOf
        (strip ((((pySplit delim content).getD 2 []).splitOn '\n').getD j [])) = true →
      containsSub mCheckedHi ((content.splitOn '\n').getD (P.count '\n' + j) []) = true :=
    fun hhi => ( containsSub_iff_infix _ _).mpr
      (((List.isPrefixOf_iff_prefix.mp hhi).isInfix.trans ( strip_infix _)).trans hinf)
  unfold toggle_task
  rw [if_neg (by omega)]
  rw [show ((k : Int)).toNat = k from by omega, ← ht]
  rw [if_neg (by omega), hidx]
  by_cases hcase : containsSub mUnchecked
      ((content.splitOn '\n').getD (P.count '\n' + j) []) = true
  · rw [if_pos hcase]
    exact ⟨_, rfl⟩
  · rw [if_neg hcase]
    have hcomp : t.completed = true := by
      cases hcompq : t.completed
      · exact absurd (hmark_unch hcompq) hcase
      · rfl
    have hsecond : (containsSub mCheckedLo
          ((content.splitOn '\n').getD (P.count '\n' + j) [])
        || containsSub mCheckedHi
          ((content.splitOn '\n').getD (P.count '\n' + j) [])) = true := by
      rcases Bool.or_eq_true_iff.mp (hr hcomp) with hlo | hhi
      · exact Bool.or_eq_true_iff.mpr (Or.inl (hmark_lo hlo))
      · exact Bool.or_eq_true_iff.mpr (Or.inr (hmark_hi hhi))
    rw [if_pos hsecond]
    exact ⟨_, rfl⟩

theorem parse_tasks_dense_and_toggle_aligned_witness :
    ((parse_tasks "---\nfm\n---\n- [ ] a\n- [x] b\n---\nbody".toList).map Task.index =
      List.range (parse_tasks "---\nfm\n---\n- [ ] a\n- [x] b\n---\nbody".toList).length) ∧
    1 ≤ ((parse_tasks "---\nfm\n---\n- [ ] a\n- [x] b\n---\nbody".toList).getD 1
      ⟨[], false, 0, 0⟩).line_number ∧
    ((parse_tasks "---\nfm\n---\n- [ ] a\n- [x] b\n---\nbody".toList).getD 1
      ⟨[], false, 0, 0⟩).line_number - 1 <
      ("---\nfm\n---\n- [ ] a\n- [x] b\n---\nbody".toList.splitOn '\n').length ∧
    ∃ L', toggle_task "2025-01-01".toList "---\nfm\n---\n- [ ] a\n- [x] b\n---\nbody".toList
        ((1 : Nat) : Int) =
      some (joinNl (("---\nfm\n---\n- [ ] a\n- [x] b\n---\nbody".toList.splitOn '\n').set
        (((parse_tasks "---\nfm\n---\n- [ ] a\n- [x] b\n---\nbody".toList).getD 1
          ⟨[], false, 0, 0⟩).line_number - 1) L')) :=
  parse_tasks_dense_and_toggle_aligned
    "---\nfm\n---\n- [ ] a\n- [x] b\n---\nbody".toList "2025-01-01".toList 1 (by decide)

end NotesBot

namespace NotesBot

end NotesBot

namespace NotesBot

end NotesBot

namespace NotesBot

end NotesBot

namespace NotesBot

end NotesBot

namespace NotesBot

theorem charset_not_infix {tok s : Str} {c : Char} (hc : c ∈ tok) (hs : c ∉ s) :
    ¬ tok <:+: s :=
  fun h => hs (h.subset hc)

theorem suffix_getLast?_eq {u v : Str} (h : u <:+ v) (hu : u ≠ []) :
    v.getLast? = u.getLast? := by
  obtain ⟨pre, rfl⟩ := h
  exact List.getLast?_append_of_ne_nil _ hu

end NotesBot

namespace NotesBot

end NotesBot

namespace NotesBot

theorem span_refute_last_ne {tok A : Str} {c : Char}
    (hlast : A.getLast? = some c)
    (hne : ∀ k, k < tok.length → 0 < k → ¬ (tok.take k).getLast? = some c) :
    ∀ k, 0 < k → k < tok.length → ¬ tok.take k <:+ A := by
  intro k hk hkl hsuf
  have hnn : tok.take k ≠ [] := by
    have hl : (tok.take k).length = min k tok.length := List.length_take k tok
    intro hnil
    rw [hnil] at hl
    simp at hl
    omega
  have heq := suffix_getLast?_eq hsuf hnn
  rw [hlast] at heq
  exact hne k hkl hk heq.symm

end NotesBot

namespace NotesBot

end NotesBot

namespace NotesBot

end NotesBot

namespace NotesBot

end NotesBot
